import Mathlib

/-!
Shallow embedding of the Killer Sudoku grid generator and cage partitioner
of `KillerSudoku.cpp` / `KillerSudoku.h`, together with proofs of the
specification claims about them.

Modelling conventions:
* `SudokuCell grid[81]` is embedded as a function `Nat → Cell`; the C++ array
  write `grid[i].value = v` becomes the functional update `setValue g i v`.
  Only indices `0..80` are ever read or written by the embedded code.
* `std::mt19937 rng` is embedded as an abstract stream of naturals `Rng`
  (a function `Nat → Nat` plus a position); each draw `rng()` yields the next
  stream element.  `std::shuffle` is embedded as a uniform random permutation
  driven by the stream (`shuffleList`: repeatedly pick the `r % n`-th
  remaining element), and `std::uniform_int_distribution<>(0, n-1)(rng)` as
  `r % n` for the next draw `r`.  All theorems below are universally
  quantified over the stream, so they hold for every realisation of the
  C++ random source.
* The recursion `GenerateFullSolution(index)` terminates because `index`
  grows towards 81; it is embedded with the explicit decreasing measure
  `fuel = 81 - index` (`solveFuel`), which makes the recursion structural.
-/

/-- The `SudokuCell` struct of `KillerSudoku.h`. -/
structure Cell where
  value : Nat
  currentInput : Nat
  cageID : Int
  isFixed : Bool
  isError : Bool
deriving DecidableEq

/-- The 81-cell grid `SudokuCell grid[81]`, embedded as a total function. -/
def Grid := Nat → Cell

/-- Abstract random stream modelling `std::mt19937`. -/
structure Rng where
  f : Nat → Nat
  pos : Nat

/-- One draw `rng()`. -/
def Rng.next (r : Rng) : Nat × Rng := (r.f r.pos, ⟨r.f, r.pos + 1⟩)

/-- Functional update of one grid cell. -/
def setCell (g : Grid) (i : Nat) (c : Cell) : Grid := fun j => if j = i then c else g j

/-- The C++ statement `grid[i].value = v`. -/
def setValue (g : Grid) (i : Nat) (v : Nat) : Grid := setCell g i { g i with value := v }

/-- The C++ statement `grid[i].cageID = cid`. -/
def setCage (g : Grid) (i : Nat) (cid : Int) : Grid := setCell g i { g i with cageID := cid }

/-- The cell state established by `ClearGrid` for every index. -/
def clearCell : Cell := ⟨0, 0, -1, false, false⟩

/-- The grid right after `ClearGrid`: every cell cleared, `cageID = -1`. -/
def clearedGrid : Grid := fun _ => clearCell

/-- One step of the random shuffle: draw `r`, take the `r % n`-th remaining
element.  Embeds `std::shuffle` as a stream-driven uniform permutation; the
first argument is fuel equal to the list length, making recursion structural. -/
def shuffleAux : Nat → List Nat → Rng → List Nat × Rng
  | 0, _, rng => ([], rng)
  | _ + 1, [], rng => ([], rng)
  | n + 1, a :: t, rng =>
    let p := rng.next
    let x := (a :: t).get ⟨p.1 % (a :: t).length, Nat.mod_lt _ (Nat.succ_pos _)⟩
    let q := shuffleAux n ((a :: t).erase x) p.2
    (x :: q.1, q.2)

/-- `std::shuffle(l.begin(), l.end(), rng)`. -/
def shuffleList (l : List Nat) (rng : Rng) : List Nat × Rng := shuffleAux l.length l rng

/-- `KillerSudokuGame::IsSafe` (KillerSudoku.cpp lines 97-116): `num` is safe
at `index` iff it appears in neither the row, the column nor the 3x3 box. -/
def IsSafe (g : Grid) (index num : Nat) : Bool :=
  let row := index / 9
  let col := index % 9
  let startRow := row / 3 * 3
  let startCol := col / 3 * 3
  ((List.range 9).all fun i =>
    !((g (row * 9 + i)).value == num) && !((g (i * 9 + col)).value == num)) &&
  ((List.range 3).all fun i => (List.range 3).all fun j =>
    !((g ((startRow + i) * 9 + (startCol + j))).value == num))

/-- The `for (int num : nums)` loop body of `GenerateFullSolution`
(KillerSudoku.cpp lines 127-133): try each shuffled digit in order; place it
if safe, recurse via `next`, and undo the placement when the recursion fails. -/
def tryNums (next : Grid → Rng → Bool × Grid × Rng) (index : Nat) :
    List Nat → Grid → Rng → Bool × Grid × Rng
  | [], g, rng => (false, g, rng)
  | num :: rest, g, rng =>
    if IsSafe g index num then
      match next (setValue g index num) rng with
      | (true, g2, rng2) => (true, g2, rng2)
      | (false, g2, rng2) => tryNums next index rest (setValue g2 index 0) rng2
    else tryNums next index rest g rng

/-- `KillerSudokuGame::GenerateFullSolution` (KillerSudoku.cpp lines 118-135),
with the recursion made structural on `fuel = 81 - index`: at fuel 0 the C++
test `index == 81` succeeds and the function returns true; otherwise a filled
cell is skipped, and an empty cell is tried with a freshly shuffled 1..9. -/
def solveFuel : Nat → Nat → Grid → Rng → Bool × Grid × Rng
  | 0, _, g, rng => (true, g, rng)
  | fuel + 1, index, g, rng =>
    if (g index).value ≠ 0 then solveFuel fuel (index + 1) g rng
    else
      match shuffleList [1, 2, 3, 4, 5, 6, 7, 8, 9] rng with
      | (nums, rng1) => tryNums (fun g' r' => solveFuel fuel (index + 1) g' r') index nums g rng1

/-- `GenerateFullSolution(index)` as called on the 81-cell grid. -/
def GenerateFullSolution (g : Grid) (rng : Rng) (index : Nat) : Bool × Grid × Rng :=
  solveFuel (81 - index) index g rng

/-- Two distinct cells share a row. -/
def sameRow (a b : Nat) : Prop := a / 9 = b / 9

/-- Two distinct cells share a column. -/
def sameCol (a b : Nat) : Prop := a % 9 = b % 9

/-- Two distinct cells share a 3x3 box. -/
def sameBox (a b : Nat) : Prop := a / 27 = b / 27 ∧ a % 9 / 3 = b % 9 / 3

/-- Two cells lie in a common row, column or box. -/
def sameUnit (a b : Nat) : Prop := sameRow a b ∨ sameCol a b ∨ sameBox a b

instance (a b : Nat) : Decidable (sameUnit a b) := by
  unfold sameUnit sameRow sameCol sameBox; infer_instance

/-- No Sudoku constraint is violated by the nonzero values of `g`. -/
def consistentVals (g : Grid) : Prop :=
  ∀ a, a < 81 → ∀ b, b < 81 → a ≠ b → sameUnit a b → (g a).value ≠ 0 →
    (g a).value ≠ (g b).value

theorem sameUnit_symm {a b : Nat} (h : sameUnit a b) : sameUnit b a := by
  rcases h with h | h | h
  · exact Or.inl h.symm
  · exact Or.inr (Or.inl h.symm)
  · exact Or.inr (Or.inr ⟨h.1.symm, h.2.symm⟩)

theorem setCell_self (g : Grid) (i : Nat) (c : Cell) : setCell g i c i = c := by
  simp [setCell]

theorem setCell_other (g : Grid) (i : Nat) (c : Cell) {j : Nat} (h : j ≠ i) :
    setCell g i c j = g j := by
  simp [setCell, h]

theorem setValue_self (g : Grid) (i v : Nat) :
    setValue g i v i = { g i with value := v } := setCell_self _ _ _

theorem setValue_other (g : Grid) (i v : Nat) {j : Nat} (h : j ≠ i) :
    setValue g i v j = g j := setCell_other _ _ _ h

theorem cell_value_zero_eta {c : Cell} (h : c.value = 0) : { c with value := 0 } = c := by
  cases c with
  | mk a b u d e => simp only at h; rw [h]

theorem setValue_undo {g : Grid} {i : Nat} (h : (g i).value = 0) (v : Nat) :
    setValue (setValue g i v) i 0 = g := by
  funext j
  by_cases hj : j = i
  · subst hj
    simp only [setValue, setCell, if_pos rfl]
    exact cell_value_zero_eta h
  · simp only [setValue, setCell, if_neg hj]

/-- The shuffle returns a permutation of its input. -/
theorem shuffleAux_perm : ∀ n l rng, l.length ≤ n → (shuffleAux n l rng).1.Perm l := by
  intro n
  induction n with
  | zero => intro l rng h; rw [List.length_eq_zero.mp (Nat.le_zero.mp h)]; exact List.Perm.refl _
  | succ n ih =>
    intro l rng h
    match l with
    | [] => exact List.Perm.refl _
    | a :: t =>
      simp only [shuffleAux]
      set x := (a :: t).get ⟨(rng.next.1) % (a :: t).length, Nat.mod_lt _ (Nat.succ_pos _)⟩
        with hx
      have hmem : x ∈ a :: t := List.get_mem _ _ _
      have hlen : ((a :: t).erase x).length ≤ n := by
        rw [List.length_erase_of_mem hmem]
        simpa using Nat.le_of_succ_le_succ h
      exact ((ih _ _ hlen).cons x).trans (List.perm_cons_erase hmem).symm

theorem shuffleList_perm (l : List Nat) (rng : Rng) : (shuffleList l rng).1.Perm l :=
  shuffleAux_perm _ _ _ (Nat.le_refl _)

/-- Forward reading of `IsSafe`: when it returns true, no cell sharing a
row, column or box with `index` holds the value `num`. -/
theorem isSafe_forward {g : Grid} {index num : Nat} (hidx : index < 81)
    (hs : IsSafe g index num = true) :
    ∀ j, j < 81 → sameUnit index j → (g j).value ≠ num := by
  intro j hj hunit
  simp only [IsSafe, Bool.and_eq_true, List.all_eq_true, List.mem_range,
    Bool.not_eq_true', beq_eq_false_iff_ne] at hs
  rcases hunit with hr | hc | hb
  · have h9 : j % 9 < 9 := Nat.mod_lt _ (by omega)
    have := (hs.1 (j % 9) h9).1
    have he : index / 9 * 9 + j % 9 = j := by
      unfold sameRow at hr; omega
    rwa [he] at this
  · have h9 : j / 9 < 9 := by omega
    have := (hs.1 (j / 9) h9).2
    have he : j / 9 * 9 + index % 9 = j := by
      unfold sameCol at hc; omega
    rwa [he] at this
  · obtain ⟨hb1, hb2⟩ := hb
    have hi : j / 9 - index / 9 / 3 * 3 < 3 := by omega
    have hjj : j % 9 - index % 9 / 3 * 3 < 3 := by omega
    have := hs.2 _ hi _ hjj
    have he : (index / 9 / 3 * 3 + (j / 9 - index / 9 / 3 * 3)) * 9 +
        (index % 9 / 3 * 3 + (j % 9 - index % 9 / 3 * 3)) = j := by omega
    rwa [he] at this

/-- Backward reading of `IsSafe`: if no cell sharing a unit with `index`
holds `num`, the check returns true. -/
theorem isSafe_backward {g : Grid} {index num : Nat} (hidx : index < 81)
    (h : ∀ j, j < 81 → sameUnit index j → (g j).value ≠ num) :
    IsSafe g index num = true := by
  simp only [IsSafe, Bool.and_eq_true, List.all_eq_true, List.mem_range,
    Bool.not_eq_true', beq_eq_false_iff_ne]
  refine ⟨fun i hi => ⟨?_, ?_⟩, fun i hi jj hjj => ?_⟩
  · exact h _ (by omega) (Or.inl (by unfold sameRow; omega))
  · exact h _ (by omega) (Or.inr (Or.inl (by unfold sameCol; omega)))
  · exact h _ (by omega) (Or.inr (Or.inr (by unfold sameBox; constructor <;> omega)))

/-- Placing a safe digit at an empty cell preserves grid consistency. -/
theorem consistent_place {g : Grid} {index num : Nat} (hidx : index < 81)
    (hg0 : (g index).value = 0) (hsafe : IsSafe g index num = true) (h1 : 1 ≤ num)
    (hcons : consistentVals g) : consistentVals (setValue g index num) := by
  intro a ha b hb hab hunit hanz
  by_cases haidx : a = index
  · subst haidx
    rw [setValue_self]
    by_cases hbidx : b = a
    · exact absurd hbidx.symm hab
    · rw [setValue_other _ _ _ hbidx]
      simp only
      exact fun hc => isSafe_forward hidx hsafe b hb hunit hc.symm
  · rw [setValue_other _ _ _ haidx] at hanz ⊢
    by_cases hbidx : b = index
    · subst hbidx
      rw [setValue_self]
      simp only
      exact isSafe_forward hidx hsafe a ha (sameUnit_symm hunit)
    · rw [setValue_other _ _ _ hbidx]
      exact hcons a ha b hb hab hunit hanz

/-- Combined postcondition of a `solveFuel fuel index` run: nonzero cells are
untouched, every change turns an empty cell in `[index, index + fuel)` into a
digit 1..9 leaving the other fields alone, failure restores the grid exactly,
success leaves no empty cell in the range, and consistency is preserved. -/
def SolveOut (index fuel : Nat) (g : Grid) (out : Bool × Grid × Rng) : Prop :=
  (∀ j, (g j).value ≠ 0 → out.2.1 j = g j) ∧
  (∀ j, out.2.1 j = g j ∨
    ((g j).value = 0 ∧ index ≤ j ∧ j < index + fuel ∧ 1 ≤ (out.2.1 j).value ∧
      (out.2.1 j).value ≤ 9 ∧ out.2.1 j = { g j with value := (out.2.1 j).value })) ∧
  (out.1 = false → out.2.1 = g) ∧
  (out.1 = true → ∀ j, index ≤ j → j < index + fuel → (out.2.1 j).value ≠ 0) ∧
  (index + fuel ≤ 81 → consistentVals g → consistentVals out.2.1)

theorem solveOut_skip {index fuel : Nat} {g : Grid} {out : Bool × Grid × Rng}
    (hnz : (g index).value ≠ 0) (h : SolveOut (index + 1) fuel g out) :
    SolveOut index (fuel + 1) g out := by
  obtain ⟨hB, hD, hA, hE, hF⟩ := h
  refine ⟨hB, ?_, hA, ?_, ?_⟩
  · intro j
    rcases hD j with hj | ⟨h0, h1, h2, h3, h4, h5⟩
    · exact Or.inl hj
    · exact Or.inr ⟨h0, by omega, by omega, h3, h4, h5⟩
  · intro ht j hj1 hj2
    by_cases hji : j = index
    · subst hji
      rw [hB j hnz]
      exact hnz
    · exact hE ht j (by omega) (by omega)
  · intro hle
    exact hF (by omega)

/-- The digit-loop of `GenerateFullSolution` satisfies the run postcondition,
assuming the recursive continuation does. -/
theorem tryNums_spec (next : Grid → Rng → Bool × Grid × Rng) (index fuel : Nat)
    (hnext : ∀ g rng, SolveOut (index + 1) fuel g (next g rng)) :
    ∀ nums g rng, (∀ n ∈ nums, 1 ≤ n ∧ n ≤ 9) → (g index).value = 0 →
      SolveOut index (fuel + 1) g (tryNums next index nums g rng) := by
  intro nums
  induction nums with
  | nil =>
    intro g rng hbound hg0
    refine ⟨fun j _ => rfl, fun j => Or.inl rfl, fun _ => rfl, ?_, fun _ h => h⟩
    intro ht
    simp [tryNums] at ht
  | cons num rest ih =>
    intro g rng hbound hg0
    by_cases hsafe : IsSafe g index num = true
    · have hnum := hbound num (List.mem_cons_self _ _)
      rcases hn : next (setValue g index num) rng with ⟨ok, g2, rng2⟩
      have hspec := hnext (setValue g index num) rng
      rw [hn] at hspec
      obtain ⟨hB, hD, hA, hE, hF⟩ := hspec
      dsimp only at hB hD hA hE hF
      cases ok with
      | true =>
        have hout : tryNums next index (num :: rest) g rng = (true, g2, rng2) := by
          simp only [tryNums, if_pos hsafe, hn]
        rw [hout]
        have hidxcell : g2 index = { g index with value := num } := by
          have := hB index (by rw [setValue_self]; simp only; omega)
          rw [setValue_self] at this
          exact this
        refine ⟨?_, ?_, fun hfalse => Bool.noConfusion hfalse, ?_, ?_⟩
        · intro j hj
          dsimp only
          have hji : j ≠ index := fun he => by rw [he] at hj; exact hj hg0
          have := hB j (by rw [setValue_other _ _ _ hji]; exact hj)
          rwa [setValue_other _ _ _ hji] at this
        · intro j
          dsimp only
          by_cases hji : j = index
          · subst hji
            exact Or.inr ⟨hg0, Nat.le_refl _, by omega, by rw [hidxcell]; dsimp only; omega,
              by rw [hidxcell]; dsimp only; omega, by rw [hidxcell]⟩
          · rcases hD j with hj | ⟨h0, h1, h2, h3, h4, h5⟩
            · rw [setValue_other _ _ _ hji] at hj
              exact Or.inl hj
            · rw [setValue_other _ _ _ hji] at h0 h5
              exact Or.inr ⟨h0, by omega, by omega, h3, h4, h5⟩
        · intro _ j hj1 hj2
          dsimp only
          by_cases hji : j = index
          · subst hji
            rw [hidxcell]
            dsimp only
            omega
          · exact hE rfl j (by omega) (by omega)
        · intro hle hcons
          dsimp only
          exact hF (by omega) (consistent_place (by omega) hg0 hsafe hnum.1 hcons)
      | false =>
        have hrestore : g2 = setValue g index num := hA rfl
        have hundo : setValue g2 index 0 = g := by
          rw [hrestore]; exact setValue_undo hg0 num
        have hout : tryNums next index (num :: rest) g rng
            = tryNums next index rest (setValue g2 index 0) rng2 := by
          simp only [tryNums, if_pos hsafe, hn]
        rw [hout, hundo]
        exact ih g rng2 (fun n hn' => hbound n (List.mem_cons_of_mem _ hn')) hg0
    · have hout : tryNums next index (num :: rest) g rng
          = tryNums next index rest g rng := by
        simp only [tryNums, if_neg hsafe]
      rw [hout]
      exact ih g rng (fun n hn' => hbound n (List.mem_cons_of_mem _ hn')) hg0

/-- Master postcondition of the backtracking solver. -/
theorem solve_spec : ∀ fuel index g rng, SolveOut index fuel g (solveFuel fuel index g rng) := by
  intro fuel
  induction fuel with
  | zero =>
    intro index g rng
    have hout : solveFuel 0 index g rng = (true, g, rng) := rfl
    rw [hout]
    refine ⟨fun j _ => rfl, fun j => Or.inl rfl, ?_, ?_, fun _ h => h⟩
    · intro h; exact Bool.noConfusion h
    · intro _ j h1 h2; omega
  | succ fuel ih =>
    intro index g rng
    by_cases hnz : (g index).value ≠ 0
    · have hout : solveFuel (fuel + 1) index g rng = solveFuel fuel (index + 1) g rng := by
        simp only [solveFuel, if_pos hnz]
      rw [hout]
      exact solveOut_skip hnz (ih (index + 1) g rng)
    · have hg0 : (g index).value = 0 := by omega
      rcases hsh : shuffleList [1, 2, 3, 4, 5, 6, 7, 8, 9] rng with ⟨nums, rng1⟩
      have hout : solveFuel (fuel + 1) index g rng
          = tryNums (fun g' r' => solveFuel fuel (index + 1) g' r') index nums g rng1 := by
        simp only [solveFuel, if_neg hnz, hsh]
      rw [hout]
      have hperm : nums.Perm [1, 2, 3, 4, 5, 6, 7, 8, 9] := by
        have := shuffleList_perm [1, 2, 3, 4, 5, 6, 7, 8, 9] rng
        rwa [hsh] at this
      refine tryNums_spec _ index fuel (fun g' r' => ih (index + 1) g' r') nums g rng1 ?_ hg0
      intro n hn
      have hmem : n ∈ [1, 2, 3, 4, 5, 6, 7, 8, 9] := hperm.mem_iff.mp hn
      simp only [List.mem_cons, List.not_mem_nil, or_false] at hmem
      omega

/-- Failure restores the grid exactly. -/
theorem solve_restore {fuel index : Nat} {g : Grid} {rng : Rng}
    (h : (solveFuel fuel index g rng).1 = false) : (solveFuel fuel index g rng).2.1 = g :=
  (solve_spec fuel index g rng).2.2.1 h

/-- `v` is a full valid completion of the partial grid `g`: it agrees with
every nonzero cell, assigns digits 1..9 everywhere, and satisfies the
row/column/box uniqueness constraints. -/
def CompletionOk (g : Grid) (v : Nat → Nat) : Prop :=
  (∀ j, j < 81 → (g j).value ≠ 0 → v j = (g j).value) ∧
  (∀ j, j < 81 → 1 ≤ v j ∧ v j ≤ 9) ∧
  (∀ a, a < 81 → ∀ b, b < 81 → a ≠ b → sameUnit a b → v a ≠ v b)

theorem completionOk_place {g : Grid} {v : Nat → Nat} {index : Nat}
    (hc : CompletionOk g v) : CompletionOk (setValue g index (v index)) v := by
  obtain ⟨ha, hb, hu⟩ := hc
  refine ⟨?_, hb, hu⟩
  intro j hj hnz
  by_cases hji : j = index
  · subst hji
    rw [setValue_self]
  · rw [setValue_other _ _ _ hji] at hnz ⊢
    exact ha j hj hnz

theorem completionOk_isSafe {g : Grid} {v : Nat → Nat} {index : Nat}
    (hidx : index < 81) (hg0 : (g index).value = 0) (hc : CompletionOk g v) :
    IsSafe g index (v index) = true := by
  obtain ⟨ha, hb, hu⟩ := hc
  apply isSafe_backward hidx
  intro j hj hunit
  by_cases hji : j = index
  · subst hji
    rw [hg0]
    have := hb j hj
    omega
  · by_cases hz : (g j).value = 0
    · rw [hz]
      have := hb index hidx
      omega
    · rw [← ha j hj hz]
      exact hu j hj index hidx hji (sameUnit_symm hunit)

/-- If a valid completion exists, the digit loop succeeds, assuming the
recursive continuation succeeds on completable grids and restores on failure. -/
theorem tryNums_complete (next : Grid → Rng → Bool × Grid × Rng) (index : Nat) (v : Nat → Nat)
    (hidx : index < 81)
    (hnextC : ∀ g rng, CompletionOk g v → (next g rng).1 = true)
    (hnextR : ∀ g rng, (next g rng).1 = false → (next g rng).2.1 = g) :
    ∀ nums g rng, (g index).value = 0 → CompletionOk g v → v index ∈ nums →
      (tryNums next index nums g rng).1 = true := by
  intro nums
  induction nums with
  | nil => intro g rng _ _ hmem; cases hmem
  | cons num rest ih =>
    intro g rng hg0 hc hmem
    by_cases hsafe : IsSafe g index num = true
    · rcases hn : next (setValue g index num) rng with ⟨ok, g2, rng2⟩
      cases ok with
      | true =>
        have hout : tryNums next index (num :: rest) g rng = (true, g2, rng2) := by
          simp only [tryNums, if_pos hsafe, hn]
        rw [hout]
      | false =>
        have hout : tryNums next index (num :: rest) g rng
            = tryNums next index rest (setValue g2 index 0) rng2 := by
          simp only [tryNums, if_pos hsafe, hn]
        have hg2 : g2 = setValue g index num := by
          have := hnextR (setValue g index num) rng
          rw [hn] at this
          exact this rfl
        have hundo : setValue g2 index 0 = g := by
          rw [hg2]; exact setValue_undo hg0 num
        rw [hout, hundo]
        have hne : num ≠ v index := by
          intro he
          have := hnextC (setValue g index num) rng (he ▸ completionOk_place hc)
          rw [hn] at this
          exact Bool.noConfusion this
        have hmem' : v index ∈ rest := by
          rcases List.mem_cons.mp hmem with he | hr
          · exact absurd he.symm hne
          · exact hr
        exact ih g rng2 hg0 hc hmem'
    · have hout : tryNums next index (num :: rest) g rng
          = tryNums next index rest g rng := by
        simp only [tryNums, if_neg hsafe]
      rw [hout]
      have hne : num ≠ v index := by
        intro he
        exact hsafe (he ▸ completionOk_isSafe hidx hg0 hc)
      have hmem' : v index ∈ rest := by
        rcases List.mem_cons.mp hmem with he | hr
        · exact absurd he.symm hne
        · exact hr
      exact ih g rng hg0 hc hmem'

/-- Completeness of the backtracking solver: whenever some valid completion of
the current partial grid exists, the run succeeds. -/
theorem solve_complete : ∀ fuel index g rng (v : Nat → Nat), index + fuel = 81 →
    CompletionOk g v → (solveFuel fuel index g rng).1 = true := by
  intro fuel
  induction fuel with
  | zero => intro index g rng v _ _; rfl
  | succ fuel ih =>
    intro index g rng v hif hc
    have hidx : index < 81 := by omega
    by_cases hnz : (g index).value ≠ 0
    · have hout : solveFuel (fuel + 1) index g rng = solveFuel fuel (index + 1) g rng := by
        simp only [solveFuel, if_pos hnz]
      rw [hout]
      exact ih (index + 1) g rng v (by omega) hc
    · have hg0 : (g index).value = 0 := by omega
      rcases hsh : shuffleList [1, 2, 3, 4, 5, 6, 7, 8, 9] rng with ⟨nums, rng1⟩
      have hout : solveFuel (fuel + 1) index g rng
          = tryNums (fun g' r' => solveFuel fuel (index + 1) g' r') index nums g rng1 := by
        simp only [solveFuel, if_neg hnz, hsh]
      rw [hout]
      have hperm : nums.Perm [1, 2, 3, 4, 5, 6, 7, 8, 9] := by
        have := shuffleList_perm [1, 2, 3, 4, 5, 6, 7, 8, 9] rng
        rwa [hsh] at this
      have hvmem : v index ∈ nums := by
        apply hperm.mem_iff.mpr
        have := hc.2.1 index hidx
        simp only [List.mem_cons, List.not_mem_nil, or_false]
        omega
      exact tryNums_complete _ index v hidx
        (fun g' r' hc' => ih (index + 1) g' r' v (by omega) hc')
        (fun g' r' hf => solve_restore hf) nums g rng1 hg0 hc hvmem

/-- Soundness of the failure result: if the top-level run reports failure,
no valid completion of the starting grid exists. -/
theorem solve_fail_no_completion {g : Grid} {rng : Rng}
    (h : (GenerateFullSolution g rng 0).1 = false) : ∀ v : Nat → Nat, ¬ CompletionOk g v := by
  intro v hc
  have := solve_complete 81 0 g rng v rfl hc
  unfold GenerateFullSolution at h
  rw [h] at this
  exact Bool.noConfusion this

/-- A concrete valid full grid, used as the completion of the empty grid:
cell `(r, c)` holds `(3 (r mod 3) + r div 3 + c) mod 9 + 1`. -/
def targetDigit (i : Nat) : Nat := (3 * (i / 9 % 3) + i / 9 / 3 + i % 9) % 9 + 1

set_option maxRecDepth 40000 in
theorem targetDigit_completion : CompletionOk clearedGrid targetDigit := by
  refine ⟨?_, ?_, ?_⟩
  · intro j _ hnz
    exact absurd rfl hnz
  · intro j _
    unfold targetDigit
    omega
  · decide

/-- On the empty grid, the top-level solver run always succeeds, for every
random stream. -/
theorem solve_empty_true (rng : Rng) : (GenerateFullSolution clearedGrid rng 0).1 = true :=
  solve_complete 81 0 clearedGrid rng targetDigit rfl targetDigit_completion

/-- One 3x3 box fill of `StartGame` (KillerSudoku.cpp lines 47-58): the cell
at local position `n` (row `n / 3`, column `n % 3`) of the box with corner
`(sr, sc)` receives `nums[n]`. -/
def fillBox (g : Grid) (sr sc : Nat) (nums : List Nat) : Grid :=
  (List.range 9).foldl
    (fun gg n => setValue gg ((sr + n / 3) * 9 + (sc + n % 3)) (nums.getD n 0)) g

theorem fillBox_foldl_other (sr sc : Nat) (nums : List Nat) :
    ∀ (L : List Nat) (g : Grid) (j : Nat),
      (∀ n ∈ L, j ≠ (sr + n / 3) * 9 + (sc + n % 3)) →
      (L.foldl (fun gg n => setValue gg ((sr + n / 3) * 9 + (sc + n % 3)) (nums.getD n 0)) g) j
        = g j := by
  intro L
  induction L with
  | nil => intro g j _; rfl
  | cons m L ih =>
    intro g j hj
    simp only [List.foldl_cons]
    rw [ih _ _ (fun n hn => hj n (List.mem_cons_of_mem _ hn))]
    exact setValue_other _ _ _ (hj m (List.mem_cons_self _ _))

theorem fillBox_foldl_hit (sr sc : Nat) (nums : List Nat) (n0 : Nat) :
    ∀ (L : List Nat) (g : Grid), L.Nodup → n0 ∈ L →
      (∀ m ∈ L, m ≠ n0 → (sr + m / 3) * 9 + (sc + m % 3) ≠ (sr + n0 / 3) * 9 + (sc + n0 % 3)) →
      (L.foldl (fun gg n => setValue gg ((sr + n / 3) * 9 + (sc + n % 3)) (nums.getD n 0)) g)
          ((sr + n0 / 3) * 9 + (sc + n0 % 3))
        = { g ((sr + n0 / 3) * 9 + (sc + n0 % 3)) with value := nums.getD n0 0 } := by
  intro L
  induction L with
  | nil => intro g _ h _; cases h
  | cons m L ih =>
    intro g hnd hmem hdist
    simp only [List.foldl_cons]
    by_cases hm : m = n0
    · subst hm
      have hnotin : m ∉ L := (List.nodup_cons.mp hnd).1
      rw [fillBox_foldl_other sr sc nums L _ _ ?_]
      · exact setValue_self _ _ _
      · intro n hn he
        exact hdist n (List.mem_cons_of_mem _ hn) (fun hq => hnotin (hq ▸ hn)) he.symm
    · have hmem' : n0 ∈ L := by
        rcases List.mem_cons.mp hmem with he | hr
        · exact absurd he.symm hm
        · exact hr
      rw [ih _ (List.nodup_cons.mp hnd).2 hmem'
        (fun n hn hne => hdist n (List.mem_cons_of_mem _ hn) hne)]
      rw [setValue_other _ _ _ (hdist m (List.mem_cons_self _ _) hm).symm]

theorem fillBox_hit (g : Grid) (sr sc : Nat) (nums : List Nat) (hsr : sr ≤ 6) (hsc : sc ≤ 6)
    {n0 : Nat} (hn0 : n0 < 9) :
    fillBox g sr sc nums ((sr + n0 / 3) * 9 + (sc + n0 % 3))
      = { g ((sr + n0 / 3) * 9 + (sc + n0 % 3)) with value := nums.getD n0 0 } := by
  apply fillBox_foldl_hit sr sc nums n0 (List.range 9) g (List.nodup_range 9)
    (List.mem_range.mpr hn0)
  intro m hm hne
  have hm9 : m < 9 := List.mem_range.mp hm
  omega

theorem fillBox_other (g : Grid) (sr sc : Nat) (nums : List Nat) {j : Nat}
    (h : ∀ n, n < 9 → j ≠ (sr + n / 3) * 9 + (sc + n % 3)) :
    fillBox g sr sc nums j = g j :=
  fillBox_foldl_other sr sc nums (List.range 9) g j (fun n hn => h n (List.mem_range.mp hn))

/-- The diagonal-box prefill of `StartGame` (KillerSudoku.cpp lines 44-58):
boxes 0, 4 and 8 with corners `(0,0)`, `(3,3)` and `(6,6)` are filled with
independently shuffled permutations of 1..9, in that order. -/
def fillDiagonal (g : Grid) (rng : Rng) : Grid × Rng :=
  let q0 := shuffleList [1, 2, 3, 4, 5, 6, 7, 8, 9] rng
  let g0 := fillBox g 0 0 q0.1
  let q1 := shuffleList [1, 2, 3, 4, 5, 6, 7, 8, 9] q0.2
  let g1 := fillBox g0 3 3 q1.1
  let q2 := shuffleList [1, 2, 3, 4, 5, 6, 7, 8, 9] q1.2
  let g2 := fillBox g1 6 6 q2.1
  (g2, q2.2)

/-- The shuffled digit list used for the `R`-th diagonal box. -/
def diagList : Nat → Rng → List Nat
  | 0, s => (shuffleList [1, 2, 3, 4, 5, 6, 7, 8, 9] s).1
  | 1, s => (shuffleList [1, 2, 3, 4, 5, 6, 7, 8, 9]
      (shuffleList [1, 2, 3, 4, 5, 6, 7, 8, 9] s).2).1
  | _, s => (shuffleList [1, 2, 3, 4, 5, 6, 7, 8, 9]
      (shuffleList [1, 2, 3, 4, 5, 6, 7, 8, 9]
        (shuffleList [1, 2, 3, 4, 5, 6, 7, 8, 9] s).2).2).1

theorem diagList_perm (R : Nat) (s : Rng) :
    (diagList R s).Perm [1, 2, 3, 4, 5, 6, 7, 8, 9] := by
  match R with
  | 0 => exact shuffleList_perm _ _
  | 1 => exact shuffleList_perm _ _
  | n + 2 => exact shuffleList_perm _ _

theorem diagList_length (R : Nat) (s : Rng) : (diagList R s).length = 9 :=
  (diagList_perm R s).length_eq.trans rfl

theorem diagList_nodup (R : Nat) (s : Rng) : (diagList R s).Nodup :=
  ((diagList_perm R s).nodup_iff).mpr (by decide)

theorem getD_get {l : List Nat} {n : Nat} (h : n < l.length) :
    l.getD n 0 = l.get ⟨n, h⟩ := by
  rw [show l.getD n 0 = (l.get? n).getD 0 from rfl, List.get?_eq_get h]
  rfl

theorem diagList_getD_bounds (R : Nat) (s : Rng) {p : Nat} (hp : p < 9) :
    1 ≤ (diagList R s).getD p 0 ∧ (diagList R s).getD p 0 ≤ 9 := by
  have hlen : p < (diagList R s).length := by rw [diagList_length]; exact hp
  rw [getD_get hlen]
  have hmem := (diagList_perm R s).mem_iff.mp (List.get_mem (diagList R s) p hlen)
  simp only [List.mem_cons, List.not_mem_nil, or_false] at hmem
  omega

theorem diagList_getD_ne (R : Nat) (s : Rng) {p q : Nat} (hp : p < 9) (hq : q < 9)
    (hpq : p ≠ q) : (diagList R s).getD p 0 ≠ (diagList R s).getD q 0 := by
  have hlp : p < (diagList R s).length := by rw [diagList_length]; exact hp
  have hlq : q < (diagList R s).length := by rw [diagList_length]; exact hq
  rw [getD_get hlp, getD_get hlq]
  intro he
  have := (List.Nodup.get_inj_iff (diagList_nodup R s)).mp he
  exact hpq (congrArg Fin.val this)

/-- Value of a diagonal-box cell after the prefill. -/
theorem fillDiagonal_box (g : Grid) (s : Rng) {j R : Nat} (hj : j < 81) (hR : R < 3)
    (h1 : j / 27 = R) (h2 : j % 9 / 3 = R) :
    (fillDiagonal g s).1 j
      = { g j with value := (diagList R s).getD (3 * (j / 9 - 3 * R) + (j % 9 - 3 * R)) 0 } := by
  unfold fillDiagonal
  dsimp only
  interval_cases R
  · have hidx : 3 * (j / 9 - 3 * 0) + (j % 9 - 3 * 0) < 9 := by omega
    have key := fillBox_hit g 0 0 (shuffleList [1, 2, 3, 4, 5, 6, 7, 8, 9] s).1
      (by omega) (by omega) hidx
    have hcell : (0 + (3 * (j / 9 - 3 * 0) + (j % 9 - 3 * 0)) / 3) * 9
        + (0 + (3 * (j / 9 - 3 * 0) + (j % 9 - 3 * 0)) % 3) = j := by omega
    rw [hcell] at key
    rw [fillBox_other _ 6 6 _ (by intro n hn; omega),
      fillBox_other _ 3 3 _ (by intro n hn; omega), key]
    rfl
  · have hidx : 3 * (j / 9 - 3 * 1) + (j % 9 - 3 * 1) < 9 := by omega
    have key := fillBox_hit (fillBox g 0 0 (shuffleList [1, 2, 3, 4, 5, 6, 7, 8, 9] s).1) 3 3
      (shuffleList [1, 2, 3, 4, 5, 6, 7, 8, 9] (shuffleList [1, 2, 3, 4, 5, 6, 7, 8, 9] s).2).1
      (by omega) (by omega) hidx
    have hcell : (3 + (3 * (j / 9 - 3 * 1) + (j % 9 - 3 * 1)) / 3) * 9
        + (3 + (3 * (j / 9 - 3 * 1) + (j % 9 - 3 * 1)) % 3) = j := by omega
    rw [hcell] at key
    rw [fillBox_other _ 0 0 _ (by intro n hn; omega)] at key
    rw [fillBox_other _ 6 6 _ (by intro n hn; omega), key]
    rfl
  · have hidx : 3 * (j / 9 - 3 * 2) + (j % 9 - 3 * 2) < 9 := by omega
    have key := fillBox_hit
      (fillBox (fillBox g 0 0 (shuffleList [1, 2, 3, 4, 5, 6, 7, 8, 9] s).1) 3 3
        (shuffleList [1, 2, 3, 4, 5, 6, 7, 8, 9] (shuffleList [1, 2, 3, 4, 5, 6, 7, 8, 9] s).2).1)
      6 6
      (shuffleList [1, 2, 3, 4, 5, 6, 7, 8, 9] (shuffleList [1, 2, 3, 4, 5, 6, 7, 8, 9]
        (shuffleList [1, 2, 3, 4, 5, 6, 7, 8, 9] s).2).2).1
      (by omega) (by omega) hidx
    have hcell : (6 + (3 * (j / 9 - 3 * 2) + (j % 9 - 3 * 2)) / 3) * 9
        + (6 + (3 * (j / 9 - 3 * 2) + (j % 9 - 3 * 2)) % 3) = j := by omega
    rw [hcell] at key
    rw [fillBox_other _ 3 3 _ (by intro n hn; omega),
      fillBox_other _ 0 0 _ (by intro n hn; omega)] at key
    rw [key]
    rfl

/-- Cells outside the three diagonal boxes are untouched by the prefill. -/
theorem fillDiagonal_outside (g : Grid) (s : Rng) {j : Nat} (hj : j < 81)
    (h : ¬ j / 27 = j % 9 / 3) : (fillDiagonal g s).1 j = g j := by
  unfold fillDiagonal
  dsimp only
  rw [fillBox_other _ 6 6 _ (by intro n hn; omega),
    fillBox_other _ 3 3 _ (by intro n hn; omega),
    fillBox_other _ 0 0 _ (by intro n hn; omega)]

theorem fillDiagonal_le (s : Rng) : ∀ j, j < 81 →
    ((fillDiagonal clearedGrid s).1 j).value ≤ 9 := by
  intro j hj
  by_cases hd : j / 27 = j % 9 / 3
  · have hR : j / 27 < 3 := by omega
    rw [fillDiagonal_box clearedGrid s hj hR rfl hd.symm]
    exact (diagList_getD_bounds _ s (by omega)).2
  · rw [fillDiagonal_outside _ _ hj hd]
    exact Nat.le_of_lt (by norm_num [clearedGrid, clearCell])

theorem consistent_cleared : consistentVals clearedGrid := by
  intro a _ b _ _ _ hanz
  exact absurd rfl hanz

theorem fillDiagonal_consistent (s : Rng) : consistentVals (fillDiagonal clearedGrid s).1 := by
  intro a ha b hb hab hunit hanz
  by_cases hda : a / 27 = a % 9 / 3
  · have hRa : a / 27 < 3 := by omega
    rw [fillDiagonal_box clearedGrid s ha hRa rfl hda.symm] at hanz ⊢
    by_cases hdb : b / 27 = b % 9 / 3
    · have hRab : b / 27 = a / 27 := by
        rcases hunit with hr | hc | hbx
        · unfold sameRow at hr; omega
        · unfold sameCol at hc; omega
        · exact hbx.1.symm
      have hRb : b / 27 < 3 := by omega
      rw [fillDiagonal_box clearedGrid s hb hRa hRab (by omega)]
      simp only
      apply diagList_getD_ne _ s (by omega) (by omega)
      omega
    · rw [fillDiagonal_outside _ _ hb hdb]
      simp only [clearedGrid, clearCell] at hanz ⊢
      exact hanz
  · rw [fillDiagonal_outside _ _ ha hda] at hanz
    exact absurd rfl hanz

/-- Each digit 1..9 occurs exactly once among nine bounded pairwise distinct
values. -/
theorem digit_count_one {f : Nat → Nat} (hbound : ∀ c, c < 9 → 1 ≤ f c ∧ f c ≤ 9)
    (hinj : ∀ c, c < 9 → ∀ d, d < 9 → c ≠ d → f c ≠ f d) :
    ∀ d, 1 ≤ d → d ≤ 9 → ((Finset.range 9).filter (fun c => f c = d)).card = 1 := by
  intro d hd1 hd9
  have hinjOn : Set.InjOn f (Finset.range 9) := by
    intro x hx y hy hxy
    by_contra hne
    exact hinj x (by simpa using hx) y (by simpa using hy) hne hxy
  have hsub : (Finset.range 9).image f ⊆ Finset.Icc 1 9 := by
    intro x hx
    rcases Finset.mem_image.mp hx with ⟨c, hc, rfl⟩
    have := hbound c (by simpa using hc)
    exact Finset.mem_Icc.mpr this
  have hcard : ((Finset.range 9).image f).card = 9 := by
    rw [Finset.card_image_of_injOn hinjOn, Finset.card_range]
  have heq : (Finset.range 9).image f = Finset.Icc 1 9 := by
    apply Finset.eq_of_subset_of_card_le hsub
    rw [hcard, Nat.card_Icc]
  have hdmem : d ∈ (Finset.range 9).image f := by
    rw [heq]; exact Finset.mem_Icc.mpr ⟨hd1, hd9⟩
  rcases Finset.mem_image.mp hdmem with ⟨c0, hc0, hfc0⟩
  rw [Finset.card_eq_one]
  refine ⟨c0, ?_⟩
  ext x
  simp only [Finset.mem_filter, Finset.mem_range, Finset.mem_singleton]
  constructor
  · rintro ⟨hx9, hfx⟩
    by_contra hne
    exact hinj x hx9 c0 (by simpa using hc0) hne (hfx.trans hfc0.symm)
  · rintro rfl
    exact ⟨by simpa using hc0, hfc0⟩

/-- A concrete all-zero random stream, used to instantiate witnesses. -/
def rngZero : Rng := ⟨fun _ => 0, 0⟩

/-- After a successful top-level solver run from a bounded consistent grid,
every cell holds a digit 1..9 and the grid is consistent. -/
theorem solved_grid_facts (g : Grid) (rng : Rng)
    (hb : ∀ j, j < 81 → (g j).value ≤ 9) (hc : consistentVals g)
    (hok : (GenerateFullSolution g rng 0).1 = true) :
    (∀ j, j < 81 → 1 ≤ ((GenerateFullSolution g rng 0).2.1 j).value ∧
      ((GenerateFullSolution g rng 0).2.1 j).value ≤ 9) ∧
    consistentVals (GenerateFullSolution g rng 0).2.1 := by
  have h := solve_spec 81 0 g rng
  rw [show GenerateFullSolution g rng 0 = solveFuel 81 0 g rng from rfl] at hok ⊢
  have hE := h.2.2.2.1 hok
  constructor
  · intro j hj
    have hnz := hE j (Nat.zero_le _) (by omega)
    rcases h.2.1 j with hu | ⟨_, _, _, h3, h4, _⟩
    · rw [hu] at hnz ⊢
      exact ⟨by omega, hb j hj⟩
    · exact ⟨h3, h4⟩
  · exact h.2.2.2.2 (by omega) hc

theorem start_grid_facts (g : Grid)
    (hstart : g = clearedGrid ∨ ∃ s : Rng, g = (fillDiagonal clearedGrid s).1) :
    (∀ j, j < 81 → (g j).value ≤ 9) ∧ consistentVals g := by
  rcases hstart with rfl | ⟨s, rfl⟩
  · exact ⟨fun j _ => by norm_num [clearedGrid, clearCell], consistent_cleared⟩
  · exact ⟨fillDiagonal_le s, fillDiagonal_consistent s⟩

/-- C1: after a game start whose grid generation begins from the cleared grid
or from the diagonal-box prefill, if `GenerateFullSolution` returns true then
in the solved grid every row, every column and every 3x3 box contains each
digit 1..9 exactly once. -/
theorem C1_generated_grid_units_are_permutations (g : Grid) (rng : Rng)
    (hstart : g = clearedGrid ∨ ∃ s : Rng, g = (fillDiagonal clearedGrid s).1)
    (hok : (GenerateFullSolution g rng 0).1 = true) :
    ∀ u, u < 9 → ∀ d, 1 ≤ d → d ≤ 9 →
      ((Finset.range 9).filter
        (fun k => ((GenerateFullSolution g rng 0).2.1 (u * 9 + k)).value = d)).card = 1 ∧
      ((Finset.range 9).filter
        (fun k => ((GenerateFullSolution g rng 0).2.1 (k * 9 + u)).value = d)).card = 1 ∧
      ((Finset.range 9).filter
        (fun k => ((GenerateFullSolution g rng 0).2.1
          ((u / 3 * 3 + k / 3) * 9 + (u % 3 * 3 + k % 3))).value = d)).card = 1 := by
  intro u hu d hd1 hd9
  obtain ⟨hb0, hc0⟩ := start_grid_facts g hstart
  obtain ⟨hbound, hcons⟩ := solved_grid_facts g rng hb0 hc0 hok
  refine ⟨?_, ?_, ?_⟩
  · apply digit_count_one (fun c hc => hbound (u * 9 + c) (by omega)) ?_ d hd1 hd9
    intro c hc c' hc' hne
    exact hcons (u * 9 + c) (by omega) (u * 9 + c') (by omega) (by omega)
      (Or.inl (by unfold sameRow; omega))
      (by have := hbound (u * 9 + c) (by omega); omega)
  · apply digit_count_one (fun c hc => hbound (c * 9 + u) (by omega)) ?_ d hd1 hd9
    intro c hc c' hc' hne
    exact hcons (c * 9 + u) (by omega) (c' * 9 + u) (by omega) (by omega)
      (Or.inr (Or.inl (by unfold sameCol; omega)))
      (by have := hbound (c * 9 + u) (by omega); omega)
  · apply digit_count_one
      (fun c hc => hbound ((u / 3 * 3 + c / 3) * 9 + (u % 3 * 3 + c % 3)) (by omega)) ?_ d hd1 hd9
    intro c hc c' hc' hne
    exact hcons ((u / 3 * 3 + c / 3) * 9 + (u % 3 * 3 + c % 3)) (by omega)
      ((u / 3 * 3 + c' / 3) * 9 + (u % 3 * 3 + c' % 3)) (by omega) (by omega)
      (Or.inr (Or.inr (by unfold sameBox; constructor <;> omega)))
      (by have := hbound ((u / 3 * 3 + c / 3) * 9 + (u % 3 * 3 + c % 3)) (by omega); omega)

/-- Witness for C1 at the cleared grid with the all-zero stream: the run
succeeds (a completion exists) and row 0, column 0 and box 0 each contain the
digit 5 exactly once. -/
theorem C1_generated_grid_units_are_permutations_witness :
    (clearedGrid = clearedGrid ∨ ∃ s : Rng, clearedGrid = (fillDiagonal clearedGrid s).1) ∧
    (0 : Nat) < 9 ∧ (1 : Nat) ≤ 5 ∧ (5 : Nat) ≤ 9 ∧
    (((Finset.range 9).filter
        (fun k => ((GenerateFullSolution clearedGrid rngZero 0).2.1 (0 * 9 + k)).value = 5)).card = 1 ∧
      ((Finset.range 9).filter
        (fun k => ((GenerateFullSolution clearedGrid rngZero 0).2.1 (k * 9 + 0)).value = 5)).card = 1 ∧
      ((Finset.range 9).filter
        (fun k => ((GenerateFullSolution clearedGrid rngZero 0).2.1
          ((0 / 3 * 3 + k / 3) * 9 + (0 % 3 * 3 + k % 3))).value = 5)).card = 1) :=
  ⟨Or.inl rfl, by omega, by omega, by omega,
    C1_generated_grid_units_are_permutations clearedGrid rngZero (Or.inl rfl)
      (solve_empty_true rngZero) 0 (by omega) 5 (by omega) (by omega)⟩

/-- C9: the backtracking solver never modifies a cell whose value was nonzero
at entry, and whenever a call returns false the grid is exactly as it was at
entry. -/
theorem C9_solver_preserves_nonzero_and_restores_on_failure
    (g : Grid) (rng : Rng) (index : Nat) :
    (∀ j, (g j).value ≠ 0 → (GenerateFullSolution g rng index).2.1 j = g j) ∧
    ((GenerateFullSolution g rng index).1 = false →
      ∀ j, (GenerateFullSolution g rng index).2.1 j = g j) := by
  have h := solve_spec (81 - index) index g rng
  exact ⟨fun j hnz => h.1 j hnz, fun hf j => congrFun (h.2.2.1 hf) j⟩

/-- A concrete partial grid on which the solver fails at once: cell 0 is
blocked in its row by 2..9 and in its column by 1. -/
def gBlocked : Grid := fun j =>
  if 1 ≤ j ∧ j ≤ 8 then { clearCell with value := j + 1 }
  else if j = 9 then { clearCell with value := 1 }
  else clearCell

/-- Witness for C9 on `gBlocked`: the run fails, a nonzero cell is preserved,
and the failed run leaves every inspected cell unchanged. -/
theorem C9_solver_preserves_nonzero_and_restores_on_failure_witness :
    (gBlocked 5).value ≠ 0 ∧
    (GenerateFullSolution gBlocked rngZero 0).2.1 5 = gBlocked 5 ∧
    (GenerateFullSolution gBlocked rngZero 0).1 = false ∧
    (GenerateFullSolution gBlocked rngZero 0).2.1 0 = gBlocked 0 :=
  ⟨by decide,
    (C9_solver_preserves_nonzero_and_restores_on_failure gBlocked rngZero 0).1 5 (by decide),
    by decide,
    (C9_solver_preserves_nonzero_and_restores_on_failure gBlocked rngZero 0).2 (by decide) 0⟩

/-- The `SudokuDifficulty` enum of `KillerSudoku.h`. -/
inductive SudokuDifficulty where
  | S_MEDIUM
  | S_HARD
deriving DecidableEq

open SudokuDifficulty

/-- The raylib `Color` struct, as used for cage tints. -/
structure Color where
  r : Nat
  g : Nat
  b : Nat
  a : Nat
deriving DecidableEq

/-- The `CAGE_COLORS` palette (KillerSudoku.cpp lines 16-19). -/
def CAGE_COLORS : List Color :=
  [⟨255, 230, 230, 100⟩, ⟨230, 255, 230, 100⟩, ⟨230, 230, 255, 100⟩,
   ⟨255, 255, 230, 100⟩, ⟨255, 230, 255, 100⟩, ⟨230, 255, 255, 100⟩]

/-- The `Cage` struct of `KillerSudoku.h`.  The id counter `currentCageID`
only ever takes values 0, 1, 2, ..., so it is embedded as `Nat`; it is cast
to `Int` when stored into a cell's `cageID` field (where -1 means none). -/
structure Cage where
  id : Nat
  targetSum : Nat
  cellIndices : List Nat
  color : Color
deriving DecidableEq

/-- The neighbor candidates contributed by one cage member `cIdx`
(KillerSudoku.cpp lines 160-173): its up, down, left and right neighbors that
exist and are still unassigned (`cageID == -1`), in that order. -/
def neighborBlock (g : Grid) (cIdx : Nat) : List Nat :=
  let r := cIdx / 9
  let c := cIdx % 9
  (if 0 < r ∧ (g ((r - 1) * 9 + c)).cageID = -1 then [(r - 1) * 9 + c] else []) ++
  (if r < 8 ∧ (g ((r + 1) * 9 + c)).cageID = -1 then [(r + 1) * 9 + c] else []) ++
  (if 0 < c ∧ (g (r * 9 + (c - 1))).cageID = -1 then [r * 9 + (c - 1)] else []) ++
  (if c < 8 ∧ (g (r * 9 + (c + 1))).cageID = -1 then [r * 9 + (c + 1)] else [])

/-- The candidate collection of one growth step (KillerSudoku.cpp lines
159-173): the concatenation of the members' neighbor blocks, in member
order. -/
def collectNeighbors (g : Grid) (cells : List Nat) : List Nat :=
  cells.flatMap (neighborBlock g)

/-- The cage growth loop (KillerSudoku.cpp lines 157-182): up to
`targetSize - 1` times, collect the unassigned neighbors of the current
members; stop early when none exist, otherwise add the drawn candidate
(index `r % size` for the next draw `r`, embedding the uniform pick) and
mark it assigned. -/
def growCage : Nat → Grid → List Nat → Int → Rng → Grid × List Nat × Rng
  | 0, g, cells, _, rng => (g, cells, rng)
  | fuel + 1, g, cells, cid, rng =>
    let nbrs := collectNeighbors g cells
    if h : nbrs = [] then (g, cells, rng)
    else
      let p := rng.next
      let nextCell := nbrs.get ⟨p.1 % nbrs.length, Nat.mod_lt _ (List.length_pos.mpr h)⟩
      growCage fuel (setCage g nextCell cid) (cells ++ [nextCell]) cid p.2

/-- The target-sum computation (KillerSudoku.cpp lines 184-188). -/
def cageSum (g : Grid) (cells : List Nat) : Nat :=
  cells.foldl (fun s cIdx => s + (g cIdx).value) 0

/-- Body of the seed loop of `GenerateCages` (KillerSudoku.cpp lines
145-190) for one index of the shuffled index list, acting on the running
state `(grid, cages, currentCageID, rng)`: indices already in a cage are
skipped; otherwise a new cage is seeded at the index, grown up to a random
target size in `[1, maxCageSize]`, its target sum computed, and the cage
emitted. -/
def processSeed (maxCageSize : Nat) (st : Grid × List Cage × Nat × Rng) (idx : Nat) :
    Grid × List Cage × Nat × Rng :=
  if (st.1 idx).cageID ≠ -1 then st
  else
    let cid := st.2.2.1
    let color := CAGE_COLORS.getD (cid % 6) ⟨0, 0, 0, 0⟩
    let g1 := setCage st.1 idx (cid : Int)
    let p := st.2.2.2.next
    let targetSize := p.1 % maxCageSize + 1
    let out := growCage (targetSize - 1) g1 [idx] (cid : Int) p.2
    (out.1, st.2.1 ++ [⟨cid, cageSum out.1 out.2.1, out.2.1, color⟩], cid + 1, out.2.2)

/-- `KillerSudokuGame::GenerateCages` (KillerSudoku.cpp lines 137-191):
`maxCageSize` is 3 for `S_MEDIUM` and 5 for `S_HARD`; the 81 cell indices are
shuffled, and each is processed as a potential cage seed. -/
def GenerateCages (g : Grid) (diff : SudokuDifficulty) (rng : Rng) :
    Grid × List Cage × Rng :=
  let maxCageSize := if diff = S_MEDIUM then 3 else 5
  let q := shuffleList (List.range 81) rng
  let st := q.1.foldl (processSeed maxCageSize) (g, [], 0, q.2)
  (st.1, st.2.1, st.2.2.2)

/-- Two cells are edge-adjacent (horizontal or vertical neighbors) on the
9x9 grid. -/
def adjacent (a b : Nat) : Prop :=
  (a / 9 = b / 9 ∧ (a % 9 + 1 = b % 9 ∨ b % 9 + 1 = a % 9)) ∨
  (a % 9 = b % 9 ∧ (a / 9 + 1 = b / 9 ∨ b / 9 + 1 = a / 9))

instance (a b : Nat) : Decidable (adjacent a b) := by
  unfold adjacent; infer_instance

theorem adjacent_symm {a b : Nat} (h : adjacent a b) : adjacent b a := by
  unfold adjacent at h ⊢
  omega

/-- Reachability within a member list: `ReachIn s a b` holds when `b` can be
reached from `a` by up/down/left/right steps that stay inside `s`. -/
inductive ReachIn (s : List Nat) : Nat → Nat → Prop
  | refl : ∀ a, a ∈ s → ReachIn s a a
  | tail : ∀ a b c, ReachIn s a b → adjacent b c → c ∈ s → ReachIn s a c

theorem ReachIn.mem_left {s : List Nat} {a b : Nat} (h : ReachIn s a b) : a ∈ s := by
  induction h with
  | refl ha => exact ha
  | tail b c hab hadj hc ih => exact ih

theorem ReachIn.mem_right {s : List Nat} {a b : Nat} (h : ReachIn s a b) : b ∈ s := by
  induction h with
  | refl ha => exact ha
  | tail b c hab hadj hc ih => exact hc

theorem ReachIn.trans {s : List Nat} {a b c : Nat} (h1 : ReachIn s a b)
    (h2 : ReachIn s b c) : ReachIn s a c := by
  induction h2 with
  | refl _ => exact h1
  | tail y z hby hadj hz ih => exact ReachIn.tail _ _ _ ih hadj hz

theorem ReachIn.symm {s : List Nat} {a b : Nat} (h : ReachIn s a b) : ReachIn s b a := by
  induction h with
  | refl ha => exact ReachIn.refl _ ha
  | tail b c hab hadj hc ih =>
    exact ReachIn.trans (ReachIn.tail c c b (ReachIn.refl c hc) (adjacent_symm hadj)
      hab.mem_right) ih

theorem ReachIn.mono {s t : List Nat} (hsub : ∀ x, x ∈ s → x ∈ t) {a b : Nat}
    (h : ReachIn s a b) : ReachIn t a b := by
  induction h with
  | refl ha => exact ReachIn.refl _ (hsub _ ha)
  | tail b c hab hadj hc ih => exact ReachIn.tail _ _ _ ih hadj (hsub c hc)

/-- Every member of `s` reaches every other member inside `s`. -/
def AllReach (s : List Nat) : Prop := ∀ a, a ∈ s → ∀ b, b ∈ s → ReachIn s a b

theorem allReach_append {s : List Nat} {x : Nat} (h : AllReach s)
    (hadj : ∃ c, c ∈ s ∧ adjacent c x) : AllReach (s ++ [x]) := by
  obtain ⟨c, hc, hcx⟩ := hadj
  have hsub : ∀ y, y ∈ s → y ∈ s ++ [x] := fun y hy => List.mem_append_left _ hy
  have hxmem : x ∈ s ++ [x] := List.mem_append_right _ (List.mem_singleton.mpr rfl)
  have hreach_x : ∀ a, a ∈ s → ReachIn (s ++ [x]) a x := fun a ha =>
    ReachIn.tail _ _ _ ((h a ha c hc).mono hsub) hcx hxmem
  intro a ha b hb
  rcases List.mem_append.mp ha with ha' | ha'
  · rcases List.mem_append.mp hb with hb' | hb'
    · exact (h a ha' b hb').mono hsub
    · rw [List.mem_singleton.mp hb']
      exact hreach_x a ha'
  · rw [List.mem_singleton.mp ha']
    rcases List.mem_append.mp hb with hb' | hb'
    · exact (hreach_x b hb').symm
    · rw [List.mem_singleton.mp hb']
      exact ReachIn.refl x hxmem

theorem mem_if_singleton {P : Prop} [Decidable P] {x n : Nat}
    (h : n ∈ if P then [x] else []) : P ∧ n = x := by
  by_cases hP : P
  · rw [if_pos hP] at h
    exact ⟨hP, List.mem_singleton.mp h⟩
  · rw [if_neg hP] at h
    cases h

theorem neighborBlock_mem {g : Grid} {c n : Nat} (hc : c < 81) (h : n ∈ neighborBlock g c) :
    n < 81 ∧ (g n).cageID = -1 ∧ adjacent c n := by
  unfold neighborBlock at h
  dsimp only at h
  rcases List.mem_append.mp h with h' | h4
  · rcases List.mem_append.mp h' with h'' | h3
    · rcases List.mem_append.mp h'' with h1 | h2
      · obtain ⟨⟨hg, hid⟩, rfl⟩ := mem_if_singleton h1
        exact ⟨by omega, hid, by unfold adjacent; omega⟩
      · obtain ⟨⟨hg, hid⟩, rfl⟩ := mem_if_singleton h2
        exact ⟨by omega, hid, by unfold adjacent; omega⟩
    · obtain ⟨⟨hg, hid⟩, rfl⟩ := mem_if_singleton h3
      exact ⟨by omega, hid, by unfold adjacent; omega⟩
  · obtain ⟨⟨hg, hid⟩, rfl⟩ := mem_if_singleton h4
    exact ⟨by omega, hid, by unfold adjacent; omega⟩

theorem collectNeighbors_mem {g : Grid} {cells : List Nat} (hc : ∀ c ∈ cells, c < 81)
    {n : Nat} (h : n ∈ collectNeighbors g cells) :
    n < 81 ∧ (g n).cageID = -1 ∧ ∃ c, c ∈ cells ∧ adjacent c n := by
  unfold collectNeighbors at h
  rcases List.mem_flatMap.mp h with ⟨c, hcm, hn⟩
  obtain ⟨h81, hid, hadj⟩ := neighborBlock_mem (hc c hcm) hn
  exact ⟨h81, hid, c, hcm, hadj⟩

/-- Combined postcondition of a cage growth run starting from member list
`cells` in grid `g`: the final members are in range, carry the cage id,
are pairwise distinct, mutually reachable and nonempty; at most `fuel` cells
are added; original members remain; and only initially unassigned cells are
touched, receiving exactly the cage id. -/
def GrowOut (g : Grid) (cells : List Nat) (cid : Int) (fuel : Nat)
    (out : Grid × List Nat × Rng) : Prop :=
  (∀ c ∈ out.2.1, c < 81) ∧
  (∀ c ∈ out.2.1, (out.1 c).cageID = cid) ∧
  out.2.1.Nodup ∧
  AllReach out.2.1 ∧
  out.2.1 ≠ [] ∧
  out.2.1.length ≤ cells.length + fuel ∧
  (∀ c ∈ cells, c ∈ out.2.1) ∧
  (∀ j, out.1 j = g j ∨
    ((g j).cageID = -1 ∧ j ∈ out.2.1 ∧ out.1 j = { g j with cageID := cid }))

theorem growCage_spec : ∀ fuel (g : Grid) (cells : List Nat) (cid : Int) (rng : Rng),
    (∀ c ∈ cells, c < 81) → (∀ c ∈ cells, (g c).cageID = cid) → cid ≠ -1 →
    cells.Nodup → AllReach cells → cells ≠ [] →
    GrowOut g cells cid fuel (growCage fuel g cells cid rng) := by
  intro fuel
  induction fuel with
  | zero =>
    intro g cells cid rng hb hid hcid hnd har hne
    exact ⟨hb, fun c hc => hid c hc, hnd, har, hne, Nat.le_add_right _ _, fun c hc => hc,
      fun j => Or.inl rfl⟩
  | succ fuel ih =>
    intro g cells cid rng hb hid hcid hnd har hne
    by_cases hniln : collectNeighbors g cells = []
    · have hout : growCage (fuel + 1) g cells cid rng = (g, cells, rng) := by
        unfold growCage
        rw [dif_pos hniln]
      rw [hout]
      exact ⟨hb, fun c hc => hid c hc, hnd, har, hne, Nat.le_add_right _ _, fun c hc => hc,
        fun j => Or.inl rfl⟩
    · have hlen : 0 < (collectNeighbors g cells).length := List.length_pos.mpr hniln
      set nx := (collectNeighbors g cells).get
        ⟨rng.next.1 % (collectNeighbors g cells).length,
          Nat.mod_lt _ (List.length_pos.mpr hniln)⟩ with hnx
      have hunfold : growCage (fuel + 1) g cells cid rng
          = (if h : collectNeighbors g cells = [] then (g, cells, rng)
            else growCage fuel
              (setCage g ((collectNeighbors g cells).get
                ⟨rng.next.1 % (collectNeighbors g cells).length,
                  Nat.mod_lt _ (List.length_pos.mpr h)⟩) cid)
              (cells ++ [(collectNeighbors g cells).get
                ⟨rng.next.1 % (collectNeighbors g cells).length,
                  Nat.mod_lt _ (List.length_pos.mpr h)⟩]) cid rng.next.2) := rfl
      have hout : growCage (fuel + 1) g cells cid rng
          = growCage fuel (setCage g nx cid) (cells ++ [nx]) cid rng.next.2 := by
        rw [hunfold, dif_neg hniln]
      have hmemn : nx ∈ collectNeighbors g cells := List.get_mem _ _ _
      obtain ⟨hnx81, hnxid, c0, hc0, hadj0⟩ := collectNeighbors_mem hb hmemn
      have hnxnot : nx ∉ cells := fun hmem => by
        rw [hid nx hmem] at hnxid
        exact hcid hnxid
      have hbounds' : ∀ c ∈ cells ++ [nx], c < 81 := by
        intro c hc
        rcases List.mem_append.mp hc with hc' | hc'
        · exact hb c hc'
        · rw [List.mem_singleton.mp hc']
          exact hnx81
      have hid' : ∀ c ∈ cells ++ [nx], (setCage g nx cid c).cageID = cid := by
        intro c hc
        rcases List.mem_append.mp hc with hc' | hc'
        · have hcne : c ≠ nx := fun he => hnxnot (he ▸ hc')
          rw [show setCage g nx cid c = g c from setCell_other _ _ _ hcne]
          exact hid c hc'
        · rw [List.mem_singleton.mp hc']
          rw [show setCage g nx cid nx = { g nx with cageID := cid } from setCell_self _ _ _]
      have hnd' : (cells ++ [nx]).Nodup := by
        rw [List.nodup_append]
        exact ⟨hnd, List.nodup_singleton _,
          fun a ha hb' => (List.mem_singleton.mp hb') ▸ hnxnot <| (List.mem_singleton.mp hb') ▸ ha⟩
      have har' : AllReach (cells ++ [nx]) := allReach_append har ⟨c0, hc0, hadj0⟩
      have hne' : cells ++ [nx] ≠ [] := by
        intro he
        rcases List.append_eq_nil.mp he with ⟨_, h2⟩
        cases h2
      have hIH := ih (setCage g nx cid) (cells ++ [nx]) cid rng.next.2
        hbounds' hid' hcid hnd' har' hne'
      rw [hout]
      obtain ⟨ihb, ihid, ihnd, ihar, ihne, ihlen, ihmono, ihchg⟩ := hIH
      refine ⟨ihb, ihid, ihnd, ihar, ihne, ?_, ?_, ?_⟩
      · rw [List.length_append] at ihlen
        simp only [List.length_singleton] at ihlen
        omega
      · intro c hc
        exact ihmono c (List.mem_append_left _ hc)
      · intro j
        rcases ihchg j with hl | ⟨hidj, hmemj, hrec⟩
        · by_cases hj : j = nx
          · rw [hj] at hl ⊢
            rw [show setCage g nx cid nx = { g nx with cageID := cid } from setCell_self _ _ _]
              at hl
            exact Or.inr ⟨hnxid, ihmono nx (List.mem_append_right _ (List.mem_singleton.mpr rfl)),
              hl⟩
          · rw [show setCage g nx cid j = g j from setCell_other _ _ _ hj] at hl
            exact Or.inl hl
        · by_cases hj : j = nx
          · rw [hj] at hidj
            rw [show setCage g nx cid nx = { g nx with cageID := cid } from setCell_self _ _ _]
              at hidj
            simp only at hidj
            exact absurd hidj hcid
          · rw [show setCage g nx cid j = g j from setCell_other _ _ _ hj] at hidj hrec
            exact Or.inr ⟨hidj, hmemj, hrec⟩

theorem cageSum_aux_congr {g1 g2 : Grid} (h : ∀ j, (g2 j).value = (g1 j).value) :
    ∀ (cells : List Nat) (s : Nat),
      cells.foldl (fun s cIdx => s + (g2 cIdx).value) s
        = cells.foldl (fun s cIdx => s + (g1 cIdx).value) s := by
  intro cells
  induction cells with
  | nil => intro s; rfl
  | cons c t ih =>
    intro s
    simp only [List.foldl_cons, h c]
    exact ih _

theorem cageSum_congr {g1 g2 : Grid} (h : ∀ j, (g2 j).value = (g1 j).value)
    (cells : List Nat) : cageSum g2 cells = cageSum g1 cells :=
  cageSum_aux_congr h cells 0

/-- Invariant of the cage-generation fold over the shuffled seed indices,
relative to the input grid `g0`: (P) only `cageID` fields are modified, and
only on cells that were unassigned in `g0`; (I) the emitted cage ids are
exactly `0, ..., currentCageID - 1` in order; (M) every member of an emitted
cage is in range and its grid cell carries that cage's id; (C) an in-range
cell unassigned in `g0` is either still unassigned or belongs to an emitted
cage; (Q) each emitted cage is nonempty, duplicate-free, within the size
bound, connected, and its target sum is the sum of its members' values. -/
def CageInv (g0 : Grid) (maxCS : Nat) (st : Grid × List Cage × Nat × Rng) : Prop :=
  (∀ j, st.1 j = g0 j ∨
    ((g0 j).cageID = -1 ∧ (st.1 j).cageID ≠ -1 ∧
      st.1 j = { g0 j with cageID := (st.1 j).cageID })) ∧
  st.2.1.map Cage.id = List.range st.2.2.1 ∧
  (∀ c ∈ st.2.1, ∀ i ∈ c.cellIndices, i < 81 ∧ (st.1 i).cageID = (c.id : Int)) ∧
  (∀ j, j < 81 → (g0 j).cageID = -1 →
    ((st.1 j).cageID = -1 ∨ ∃ c, c ∈ st.2.1 ∧ j ∈ c.cellIndices)) ∧
  (∀ c ∈ st.2.1, c.cellIndices ≠ [] ∧ c.cellIndices.Nodup ∧
    c.cellIndices.length ≤ maxCS ∧ AllReach c.cellIndices ∧
    c.targetSum = cageSum st.1 c.cellIndices)

theorem processSeed_inv {g0 : Grid} {maxCS : Nat} {st : Grid × List Cage × Nat × Rng}
    (hst : CageInv g0 maxCS st) {idx : Nat} (hidx : idx < 81) (hmax : 0 < maxCS) :
    CageInv g0 maxCS (processSeed maxCS st idx) ∧
    ((processSeed maxCS st idx).1 idx).cageID ≠ -1 ∧
    (∀ j, (st.1 j).cageID ≠ -1 → (processSeed maxCS st idx).1 j = st.1 j) ∧
    (∀ j, ((processSeed maxCS st idx).1 j).value = (st.1 j).value) := by
  obtain ⟨hP, hI, hM, hC, hQ⟩ := hst
  by_cases hskip : (st.1 idx).cageID = -1
  · have hnc : ¬((st.1 idx).cageID ≠ -1) := fun h => h hskip
    have hcidne : (st.2.2.1 : Int) ≠ -1 := by omega
    set out := growCage (st.2.2.2.next.1 % maxCS + 1 - 1)
      (setCage st.1 idx (st.2.2.1 : Int)) [idx] (st.2.2.1 : Int) st.2.2.2.next.2 with hod
    have hps : processSeed maxCS st idx
        = (out.1, st.2.1 ++ [⟨st.2.2.1, cageSum out.1 out.2.1, out.2.1,
            CAGE_COLORS.getD (st.2.2.1 % 6) ⟨0, 0, 0, 0⟩⟩], st.2.2.1 + 1, out.2.2) := by
      rw [hod]
      unfold processSeed
      rw [if_neg hnc]
    have hb1 : ∀ c ∈ [idx], c < 81 := by
      intro c hc
      rw [List.mem_singleton.mp hc]
      exact hidx
    have hid1 : ∀ c ∈ [idx], (setCage st.1 idx (st.2.2.1 : Int) c).cageID = (st.2.2.1 : Int) := by
      intro c hc
      rw [List.mem_singleton.mp hc,
        show setCage st.1 idx (st.2.2.1 : Int) idx = { st.1 idx with cageID := (st.2.2.1 : Int) }
          from setCell_self _ _ _]
    have har1 : AllReach [idx] := by
      intro a ha b hb
      rw [List.mem_singleton.mp ha, List.mem_singleton.mp hb]
      exact ReachIn.refl idx (List.mem_singleton.mpr rfl)
    have hG := growCage_spec (st.2.2.2.next.1 % maxCS + 1 - 1)
      (setCage st.1 idx (st.2.2.1 : Int)) [idx] (st.2.2.1 : Int) st.2.2.2.next.2
      hb1 hid1 hcidne (List.nodup_singleton _) har1 (by simp)
    rw [← hod] at hG
    obtain ⟨gb, gid, gnd, gar, gne, glen, gmono, gchg⟩ := hG
    have hidxmem : idx ∈ out.2.1 := gmono idx (List.mem_singleton.mpr rfl)
    have hchg' : ∀ j, out.1 j = st.1 j ∨
        ((st.1 j).cageID = -1 ∧ j ∈ out.2.1 ∧
          out.1 j = { st.1 j with cageID := (st.2.2.1 : Int) }) := by
      intro j
      rcases gchg j with hl | ⟨hgid, hmem, hrec⟩
      · by_cases hj : j = idx
        · rw [hj] at hl ⊢
          rw [show setCage st.1 idx (st.2.2.1 : Int) idx
              = { st.1 idx with cageID := (st.2.2.1 : Int) } from setCell_self _ _ _] at hl
          exact Or.inr ⟨hskip, hidxmem, hl⟩
        · rw [show setCage st.1 idx (st.2.2.1 : Int) j = st.1 j
            from setCell_other _ _ _ hj] at hl
          exact Or.inl hl
      · by_cases hj : j = idx
        · rw [hj] at hgid
          rw [show setCage st.1 idx (st.2.2.1 : Int) idx
              = { st.1 idx with cageID := (st.2.2.1 : Int) } from setCell_self _ _ _] at hgid
          simp only at hgid
          exact absurd hgid hcidne
        · rw [show setCage st.1 idx (st.2.2.1 : Int) j = st.1 j
            from setCell_other _ _ _ hj] at hgid hrec
          exact Or.inr ⟨hgid, hmem, hrec⟩
    have hval : ∀ j, (out.1 j).value = (st.1 j).value := by
      intro j
      rcases hchg' j with hl | ⟨_, _, hrec⟩
      · rw [hl]
      · rw [hrec]
    have hmono2 : ∀ j, (st.1 j).cageID ≠ -1 → out.1 j = st.1 j := by
      intro j hne
      rcases hchg' j with hl | ⟨hm1, _, _⟩
      · exact hl
      · exact absurd hm1 hne
    have hidnew : (out.1 idx).cageID = (st.2.2.1 : Int) := gid idx hidxmem
    rw [hps]
    refine ⟨⟨?_, ?_, ?_, ?_, ?_⟩, ?_, ?_, ?_⟩
    · intro j
      rcases hchg' j with heq | ⟨hstm1, hmem, hrec⟩
      · rcases hP j with hl | ⟨h0, hne', hrecP⟩
        · exact Or.inl (heq.trans hl)
        · refine Or.inr ⟨h0, ?_, ?_⟩
          · show (out.1 j).cageID ≠ -1
            rw [heq]
            exact hne'
          · show out.1 j = { g0 j with cageID := (out.1 j).cageID }
            rw [heq]
            exact hrecP
      · have hcval : (out.1 j).cageID = (st.2.2.1 : Int) := by rw [hrec]
        rcases hP j with hl | ⟨_, hneP, _⟩
        · refine Or.inr ⟨?_, ?_, ?_⟩
          · rw [← hl]
            exact hstm1
          · show (out.1 j).cageID ≠ -1
            rw [hcval]
            exact hcidne
          · show out.1 j = { g0 j with cageID := (out.1 j).cageID }
            rw [hl] at hrec
            rw [hcval]
            exact hrec
        · exact absurd hstm1 hneP
    · show (st.2.1 ++ [_]).map Cage.id = List.range (st.2.2.1 + 1)
      rw [List.map_append, hI, List.range_succ]
      rfl
    · intro c hc i hi
      rcases List.mem_append.mp hc with hold | hnew
      · obtain ⟨hi81, hiid⟩ := hM c hold i hi
        have hcidne' : (c.id : Int) ≠ -1 := by omega
        refine ⟨hi81, ?_⟩
        show (out.1 i).cageID = (c.id : Int)
        rw [hmono2 i (by rw [hiid]; exact hcidne')]
        exact hiid
      · rw [List.mem_singleton.mp hnew] at hi ⊢
        exact ⟨gb i hi, gid i hi⟩
    · intro j hj81 hg0
      by_cases hcur : (out.1 j).cageID = -1
      · exact Or.inl hcur
      · by_cases hstj : (st.1 j).cageID = -1
        · rcases hchg' j with hl | ⟨_, hmem, _⟩
          · exact absurd (by rw [hl]; exact hstj) hcur
          · exact Or.inr ⟨_, List.mem_append_right _ (List.mem_singleton.mpr rfl), hmem⟩
        · rcases hC j hj81 hg0 with hl | ⟨c, hcm, hcim⟩
          · exact absurd hl hstj
          · exact Or.inr ⟨c, List.mem_append_left _ hcm, hcim⟩
    · intro c hc
      rcases List.mem_append.mp hc with hold | hnew
      · obtain ⟨q1, q2, q3, q4, q5⟩ := hQ c hold
        refine ⟨q1, q2, q3, q4, ?_⟩
        show c.targetSum = cageSum out.1 c.cellIndices
        rw [cageSum_congr hval]
        exact q5
      · rw [List.mem_singleton.mp hnew]
        refine ⟨gne, gnd, ?_, gar, rfl⟩
        show out.2.1.length ≤ maxCS
        have := Nat.mod_lt st.2.2.2.next.1 hmax
        simp only [List.length_singleton] at glen
        omega
    · show (out.1 idx).cageID ≠ -1
      rw [hidnew]
      exact hcidne
    · intro j hne
      exact hmono2 j hne
    · intro j
      exact hval j
  · have hout : processSeed maxCS st idx = st := by
      unfold processSeed
      rw [if_pos hskip]
    rw [hout]
    exact ⟨⟨hP, hI, hM, hC, hQ⟩, hskip, fun j _ => rfl, fun j => rfl⟩

theorem foldl_processSeed_inv {g0 : Grid} {maxCS : Nat} (hmax : 0 < maxCS) :
    ∀ (L : List Nat) (st : Grid × List Cage × Nat × Rng),
      (∀ i ∈ L, i < 81) → CageInv g0 maxCS st →
      CageInv g0 maxCS (L.foldl (processSeed maxCS) st) ∧
      (∀ i ∈ L, ((L.foldl (processSeed maxCS) st).1 i).cageID ≠ -1) ∧
      (∀ j, (st.1 j).cageID ≠ -1 → (L.foldl (processSeed maxCS) st).1 j = st.1 j) ∧
      (∀ j, ((L.foldl (processSeed maxCS) st).1 j).value = (st.1 j).value) := by
  intro L
  induction L with
  | nil =>
    intro st hL hst
    exact ⟨hst, fun i hi => absurd hi (List.not_mem_nil i), fun j _ => rfl, fun j => rfl⟩
  | cons i t ih =>
    intro st hL hst
    have hi81 : i < 81 := hL i (List.mem_cons_self i t)
    obtain ⟨h1, h2, h3, h4⟩ := processSeed_inv hst hi81 hmax
    have ht : ∀ x ∈ t, x < 81 := fun x hx => hL x (List.mem_cons_of_mem i hx)
    obtain ⟨ih1, ih2, ih3, ih4⟩ := ih (processSeed maxCS st i) ht h1
    rw [List.foldl_cons]
    refine ⟨ih1, ?_, ?_, ?_⟩
    · intro x hx
      rcases List.mem_cons.mp hx with hxe | hxm
      · rw [hxe, ih3 i h2]
        exact h2
      · exact ih2 x hxm
    · intro j hj
      rw [ih3 j (by rw [h3 j hj]; exact hj), h3 j hj]
    · intro j
      rw [ih4 j, h4 j]

theorem cageInv_init (g0 : Grid) (maxCS : Nat) (r : Rng) :
    CageInv g0 maxCS (g0, [], 0, r) := by
  refine ⟨fun j => Or.inl rfl, rfl, ?_, ?_, ?_⟩
  · intro c hc
    cases hc
  · intro j _ h
    exact Or.inl h
  · intro c hc
    cases hc

/-- Master correctness statement for `GenerateCages`: for some final cage id
counter `n`, the cage invariant holds of the output, every in-range cell ends
up assigned to a cage, and cell values are untouched. -/
theorem generateCages_inv (g : Grid) (diff : SudokuDifficulty) (rng : Rng) :
    ∃ n : Nat, CageInv g (if diff = S_MEDIUM then 3 else 5)
      ((GenerateCages g diff rng).1, (GenerateCages g diff rng).2.1, n,
        (GenerateCages g diff rng).2.2) ∧
    (∀ i, i < 81 → ((GenerateCages g diff rng).1 i).cageID ≠ -1) ∧
    (∀ j, ((GenerateCages g diff rng).1 j).value = (g j).value) := by
  have hperm := shuffleList_perm (List.range 81) rng
  have hmem : ∀ i ∈ (shuffleList (List.range 81) rng).1, i < 81 := by
    intro i hi
    have := hperm.mem_iff.mp hi
    simpa using this
  have hmax : 0 < (if diff = S_MEDIUM then 3 else 5) := by
    by_cases h : diff = S_MEDIUM <;> simp [h]
  obtain ⟨h1, h2, h3, h4⟩ := foldl_processSeed_inv hmax
    (shuffleList (List.range 81) rng).1
    (g, [], 0, (shuffleList (List.range 81) rng).2) hmem
    (cageInv_init g _ _)
  refine ⟨((shuffleList (List.range 81) rng).1.foldl
      (processSeed (if diff = S_MEDIUM then 3 else 5))
      (g, [], 0, (shuffleList (List.range 81) rng).2)).2.2.1, h1, ?_, ?_⟩
  · intro i hi
    exact h2 i (hperm.mem_iff.mpr (List.mem_range.mpr hi))
  · intro j
    exact h4 j

theorem cages_cover (g : Grid) (diff : SudokuDifficulty) (rng : Rng)
    (hinit : ∀ j, j < 81 → (g j).cageID = -1) :
    ∀ i, i < 81 → ∃ c, c ∈ (GenerateCages g diff rng).2.1 ∧ i ∈ c.cellIndices := by
  obtain ⟨n, hinv, hall, hval⟩ := generateCages_inv g diff rng
  obtain ⟨hP, hI, hM, hC, hQ⟩ := hinv
  intro i hi
  rcases hC i hi (hinit i hi) with hm1 | hex
  · exact absurd hm1 (hall i hi)
  · exact hex

theorem cages_unique (g : Grid) (diff : SudokuDifficulty) (rng : Rng) :
    ∀ i, ∀ c1, c1 ∈ (GenerateCages g diff rng).2.1 →
      ∀ c2, c2 ∈ (GenerateCages g diff rng).2.1 →
      i ∈ c1.cellIndices → i ∈ c2.cellIndices → c1 = c2 := by
  obtain ⟨n, hinv, hall, hval⟩ := generateCages_inv g diff rng
  obtain ⟨hP, hI, hM, hC, hQ⟩ := hinv
  intro i c1 hc1 c2 hc2 hi1 hi2
  have h1 := (hM c1 hc1 i hi1).2
  have h2 := (hM c2 hc2 i hi2).2
  have hid : c1.id = c2.id := by
    have : (c1.id : Int) = (c2.id : Int) := by rw [← h1, ← h2]
    omega
  have hmapnd : ((GenerateCages g diff rng).2.1.map Cage.id).Nodup := by
    rw [hI]
    exact List.nodup_range n
  exact List.inj_on_of_nodup_map hmapnd hc1 hc2 hid

/-- C2: on a grid whose cells all start unassigned (`cageID = -1`, as
`ClearGrid` leaves them), the cages emitted by `GenerateCages` partition the
81 cells: every index `0..80` lies in the member list of exactly one cage,
no member list has duplicates, and all members are in range. -/
theorem C2_cages_partition_cells (g : Grid) (diff : SudokuDifficulty) (rng : Rng)
    (hinit : ∀ j, j < 81 → (g j).cageID = -1) :
    (∀ i, i < 81 → ∃ c, c ∈ (GenerateCages g diff rng).2.1 ∧ i ∈ c.cellIndices ∧
      ∀ c2, c2 ∈ (GenerateCages g diff rng).2.1 → i ∈ c2.cellIndices → c2 = c) ∧
    (∀ c, c ∈ (GenerateCages g diff rng).2.1 → c.cellIndices.Nodup) ∧
    (∀ c, c ∈ (GenerateCages g diff rng).2.1 → ∀ i, i ∈ c.cellIndices → i < 81) := by
  refine ⟨?_, ?_, ?_⟩
  · intro i hi
    obtain ⟨c, hc, hic⟩ := cages_cover g diff rng hinit i hi
    exact ⟨c, hc, hic, fun c2 hc2 hic2 => cages_unique g diff rng i c2 hc2 c hc hic2 hic⟩
  · obtain ⟨n, hinv, hall, hval⟩ := generateCages_inv g diff rng
    obtain ⟨hP, hI, hM, hC, hQ⟩ := hinv
    intro c hc
    exact (hQ c hc).2.1
  · obtain ⟨n, hinv, hall, hval⟩ := generateCages_inv g diff rng
    obtain ⟨hP, hI, hM, hC, hQ⟩ := hinv
    intro c hc i hi
    exact (hM c hc i hi).1

theorem C2_cages_partition_cells_witness :
    (∀ i, i < 81 → ∃ c, c ∈ (GenerateCages clearedGrid S_MEDIUM rngZero).2.1 ∧
      i ∈ c.cellIndices ∧
      ∀ c2, c2 ∈ (GenerateCages clearedGrid S_MEDIUM rngZero).2.1 →
        i ∈ c2.cellIndices → c2 = c) ∧
    (∀ c, c ∈ (GenerateCages clearedGrid S_MEDIUM rngZero).2.1 → c.cellIndices.Nodup) ∧
    (∀ c, c ∈ (GenerateCages clearedGrid S_MEDIUM rngZero).2.1 →
      ∀ i, i ∈ c.cellIndices → i < 81) :=
  C2_cages_partition_cells clearedGrid S_MEDIUM rngZero (fun j hj => rfl)

/-- C3: every cage emitted by `GenerateCages` has a nonempty member set, and
any two members are joined by a chain of edge-adjacent steps that stays
inside the member set (`ReachIn`). -/
theorem C3_cages_connected (g : Grid) (diff : SudokuDifficulty) (rng : Rng) :
    ∀ c, c ∈ (GenerateCages g diff rng).2.1 →
      c.cellIndices ≠ [] ∧
      ∀ a, a ∈ c.cellIndices → ∀ b, b ∈ c.cellIndices → ReachIn c.cellIndices a b := by
  obtain ⟨n, hinv, hall, hval⟩ := generateCages_inv g diff rng
  obtain ⟨hP, hI, hM, hC, hQ⟩ := hinv
  intro c hc
  obtain ⟨q1, q2, q3, q4, q5⟩ := hQ c hc
  exact ⟨q1, fun a ha b hb => q4 a ha b hb⟩

theorem C3_cages_connected_witness :
    ∃ c, c ∈ (GenerateCages clearedGrid S_HARD rngZero).2.1 ∧
      (c.cellIndices ≠ [] ∧
        ∀ a, a ∈ c.cellIndices → ∀ b, b ∈ c.cellIndices → ReachIn c.cellIndices a b) := by
  obtain ⟨c, hc, _⟩ := cages_cover clearedGrid S_HARD rngZero (fun j hj => rfl) 0 (by omega)
  exact ⟨c, hc, C3_cages_connected clearedGrid S_HARD rngZero c hc⟩

/-- C4: every cage emitted by `GenerateCages` has between 1 and
`maxCageSize` member cells, where `maxCageSize` is 3 for `S_MEDIUM` and 5
for `S_HARD`. -/
theorem C4_cage_size_bounds (g : Grid) (diff : SudokuDifficulty) (rng : Rng) :
    ∀ c, c ∈ (GenerateCages g diff rng).2.1 →
      1 ≤ c.cellIndices.length ∧
      (diff = S_MEDIUM → c.cellIndices.length ≤ 3) ∧
      (diff = S_HARD → c.cellIndices.length ≤ 5) := by
  obtain ⟨n, hinv, hall, hval⟩ := generateCages_inv g diff rng
  obtain ⟨hP, hI, hM, hC, hQ⟩ := hinv
  intro c hc
  obtain ⟨q1, q2, q3, q4, q5⟩ := hQ c hc
  refine ⟨List.length_pos.mpr q1, ?_, ?_⟩
  · intro hm
    rw [hm, if_pos rfl] at q3
    exact q3
  · intro hh
    rw [hh, if_neg (by decide)] at q3
    exact q3

theorem C4_cage_size_bounds_witness :
    ∃ c, c ∈ (GenerateCages clearedGrid S_MEDIUM rngZero).2.1 ∧
      (1 ≤ c.cellIndices.length ∧
        (S_MEDIUM = S_MEDIUM → c.cellIndices.length ≤ 3) ∧
        (S_MEDIUM = S_HARD → c.cellIndices.length ≤ 5)) := by
  obtain ⟨c, hc, _⟩ := cages_cover clearedGrid S_MEDIUM rngZero (fun j hj => rfl) 0 (by omega)
  exact ⟨c, hc, C4_cage_size_bounds clearedGrid S_MEDIUM rngZero c hc⟩

/-- C5: every cage emitted by `GenerateCages` stores as `targetSum` exactly
the sum of the `value` fields at its member indices, whether recomputed from
the output grid or from the input (solution) grid, whose values are
unchanged. -/
theorem C5_cage_target_sums (g : Grid) (diff : SudokuDifficulty) (rng : Rng) :
    ∀ c, c ∈ (GenerateCages g diff rng).2.1 →
      c.targetSum = cageSum (GenerateCages g diff rng).1 c.cellIndices ∧
      c.targetSum = cageSum g c.cellIndices := by
  obtain ⟨n, hinv, hall, hval⟩ := generateCages_inv g diff rng
  obtain ⟨hP, hI, hM, hC, hQ⟩ := hinv
  intro c hc
  obtain ⟨q1, q2, q3, q4, q5⟩ := hQ c hc
  refine ⟨q5, ?_⟩
  rw [q5, cageSum_congr hval]

theorem C5_cage_target_sums_witness :
    ∃ c, c ∈ (GenerateCages clearedGrid S_HARD rngZero).2.1 ∧
      (c.targetSum = cageSum (GenerateCages clearedGrid S_HARD rngZero).1 c.cellIndices ∧
        c.targetSum = cageSum clearedGrid c.cellIndices) := by
  obtain ⟨c, hc, _⟩ := cages_cover clearedGrid S_HARD rngZero (fun j hj => rfl) 5 (by omega)
  exact ⟨c, hc, C5_cage_target_sums clearedGrid S_HARD rngZero c hc⟩

/-- C10: after `GenerateCages` on a grid whose cells all start unassigned,
the emitted cage ids are exactly `0, ..., cages.length - 1` in order, and
every in-range cell's `cageID` equals the id of the unique cage containing
it (in particular no cell keeps `cageID = -1`). -/
theorem C10_cage_ids_consistent (g : Grid) (diff : SudokuDifficulty) (rng : Rng)
    (hinit : ∀ j, j < 81 → (g j).cageID = -1) :
    (GenerateCages g diff rng).2.1.map Cage.id
      = List.range (GenerateCages g diff rng).2.1.length ∧
    (∀ i, i < 81 → ((GenerateCages g diff rng).1 i).cageID ≠ -1 ∧
      ∃ c, c ∈ (GenerateCages g diff rng).2.1 ∧ i ∈ c.cellIndices ∧
        ((GenerateCages g diff rng).1 i).cageID = (c.id : Int) ∧
        ∀ c2, c2 ∈ (GenerateCages g diff rng).2.1 → i ∈ c2.cellIndices → c2 = c) := by
  obtain ⟨n, hinv, hall, hval⟩ := generateCages_inv g diff rng
  obtain ⟨hP, hI, hM, hC, hQ⟩ := hinv
  have hlen : (GenerateCages g diff rng).2.1.length = n := by
    have := congrArg List.length hI
    simpa using this
  refine ⟨by rw [hlen]; exact hI, ?_⟩
  intro i hi
  refine ⟨hall i hi, ?_⟩
  obtain ⟨c, hc, hic⟩ := cages_cover g diff rng hinit i hi
  exact ⟨c, hc, hic, (hM c hc i hic).2,
    fun c2 hc2 hic2 => cages_unique g diff rng i c2 hc2 c hc hic2 hic⟩

theorem C10_cage_ids_consistent_witness :
    (GenerateCages clearedGrid S_HARD rngZero).2.1.map Cage.id
      = List.range (GenerateCages clearedGrid S_HARD rngZero).2.1.length ∧
    (∀ i, i < 81 → ((GenerateCages clearedGrid S_HARD rngZero).1 i).cageID ≠ -1 ∧
      ∃ c, c ∈ (GenerateCages clearedGrid S_HARD rngZero).2.1 ∧ i ∈ c.cellIndices ∧
        ((GenerateCages clearedGrid S_HARD rngZero).1 i).cageID = (c.id : Int) ∧
        ∀ c2, c2 ∈ (GenerateCages clearedGrid S_HARD rngZero).2.1 →
          i ∈ c2.cellIndices → c2 = c) :=
  C10_cage_ids_consistent clearedGrid S_HARD rngZero (fun j hj => rfl)

theorem nodup_if_singleton {P : Prop} [Decidable P] (x : Nat) :
    ((if P then [x] else []) : List Nat).Nodup := by
  by_cases hP : P <;> simp [hP]

theorem disjoint_if_singletons {P Q : Prop} [Decidable P] [Decidable Q] {x y : Nat}
    (h : P → Q → x ≠ y) :
    ((if P then [x] else []) : List Nat).Disjoint (if Q then [y] else []) := by
  intro a ha hb
  obtain ⟨hP, rfl⟩ := mem_if_singleton ha
  obtain ⟨hQ, he⟩ := mem_if_singleton hb
  exact h hP hQ he

theorem neighborBlock_nodup {g : Grid} {c : Nat} (hc : c < 81) :
    (neighborBlock g c).Nodup := by
  unfold neighborBlock
  dsimp only
  rw [List.nodup_append, List.nodup_append, List.nodup_append]
  refine ⟨⟨⟨nodup_if_singleton _, nodup_if_singleton _,
    disjoint_if_singletons ?_⟩, nodup_if_singleton _, ?_⟩, nodup_if_singleton _, ?_⟩
  · intro h1 h2
    omega
  · intro a ha hb
    rcases List.mem_append.mp ha with h1 | h2
    · obtain ⟨hP, rfl⟩ := mem_if_singleton h1
      obtain ⟨hQ, he⟩ := mem_if_singleton hb
      omega
    · obtain ⟨hP, rfl⟩ := mem_if_singleton h2
      obtain ⟨hQ, he⟩ := mem_if_singleton hb
      omega
  · intro a ha hb
    obtain ⟨hQ, he⟩ := mem_if_singleton hb
    rcases List.mem_append.mp ha with h12 | h3
    · rcases List.mem_append.mp h12 with h1 | h2
      · obtain ⟨hP, rfl⟩ := mem_if_singleton h1
        omega
      · obtain ⟨hP, rfl⟩ := mem_if_singleton h2
        omega
    · obtain ⟨hP, rfl⟩ := mem_if_singleton h3
      omega

theorem neighborBlock_mem_iff {g : Grid} {c : Nat} (hc : c < 81) {n : Nat} (hn81 : n < 81) :
    n ∈ neighborBlock g c ↔ ((g n).cageID = -1 ∧ adjacent c n) := by
  constructor
  · intro h
    obtain ⟨_, hid, hadj⟩ := neighborBlock_mem hc h
    exact ⟨hid, hadj⟩
  · rintro ⟨hid, hadj⟩
    unfold neighborBlock
    dsimp only
    unfold adjacent at hadj
    rcases hadj with ⟨hrow, hR | hL⟩ | ⟨hcol, hD | hU⟩
    · -- n is the right neighbor of c
      have hn : n = c / 9 * 9 + (c % 9 + 1) := by omega
      refine List.mem_append.mpr (Or.inr ?_)
      rw [if_pos ⟨by omega, by rw [← hn]; exact hid⟩]
      exact List.mem_singleton.mpr hn
    · -- n is the left neighbor of c
      have hn : n = c / 9 * 9 + (c % 9 - 1) := by omega
      refine List.mem_append.mpr (Or.inl (List.mem_append.mpr (Or.inr ?_)))
      rw [if_pos ⟨by omega, by rw [← hn]; exact hid⟩]
      exact List.mem_singleton.mpr hn
    · -- n is the down neighbor of c
      have hn : n = (c / 9 + 1) * 9 + c % 9 := by omega
      refine List.mem_append.mpr (Or.inl (List.mem_append.mpr (Or.inl
        (List.mem_append.mpr (Or.inr ?_)))))
      rw [if_pos ⟨by omega, by rw [← hn]; exact hid⟩]
      exact List.mem_singleton.mpr hn
    · -- n is the up neighbor of c
      have hn : n = (c / 9 - 1) * 9 + c % 9 := by omega
      refine List.mem_append.mpr (Or.inl (List.mem_append.mpr (Or.inl
        (List.mem_append.mpr (Or.inl ?_)))))
      rw [if_pos ⟨by omega, by rw [← hn]; exact hid⟩]
      exact List.mem_singleton.mpr hn

theorem neighborBlock_count {g : Grid} {c : Nat} (hc : c < 81) {n : Nat} (hn81 : n < 81) :
    (neighborBlock g c).count n
      = if (g n).cageID = -1 ∧ adjacent c n then 1 else 0 := by
  by_cases h : (g n).cageID = -1 ∧ adjacent c n
  · rw [if_pos h]
    exact List.count_eq_one_of_mem (neighborBlock_nodup hc)
      ((neighborBlock_mem_iff hc hn81).mpr h)
  · rw [if_neg h]
    exact List.count_eq_zero_of_not_mem (fun hm => h ((neighborBlock_mem_iff hc hn81).mp hm))

theorem collectNeighbors_count {g : Grid} {n : Nat} (hn81 : n < 81) :
    ∀ cells : List Nat, (∀ c ∈ cells, c < 81) →
      (collectNeighbors g cells).count n
        = if (g n).cageID = -1 then cells.countP (fun c => decide (adjacent c n)) else 0 := by
  intro cells
  induction cells with
  | nil =>
    intro _
    by_cases hid : (g n).cageID = -1 <;> simp [collectNeighbors, hid]
  | cons c t ih =>
    intro hb
    have hc81 : c < 81 := hb c (List.mem_cons_self c t)
    have ht : ∀ x ∈ t, x < 81 := fun x hx => hb x (List.mem_cons_of_mem c hx)
    have hcc : collectNeighbors g (c :: t) = neighborBlock g c ++ collectNeighbors g t := rfl
    rw [hcc, List.count_append, neighborBlock_count hc81 hn81, ih ht]
    by_cases hid : (g n).cageID = -1 <;> by_cases hadj : adjacent c n <;>
      simp [hid, hadj, List.countP_cons] <;> omega

/-- The grid state reached after the cage seeded at cell 0 (cage id 0) has
grown to members `[0, 1, 9]` under the stream `sC8`. -/
def gC8 : Grid := setCage (setCage (setCage clearedGrid 0 0) 1 0) 9 0

/-- A concrete stream: first draw 1, all later draws 0. -/
def sC8 : Rng := ⟨fun n => if n = 0 then 1 else 0, 0⟩

/-- C8 is false as stated: the candidate collection of a growth step lists an
unassigned cell once per adjacent cage member, so a cell adjacent to two
members appears twice and is picked with doubled probability. In the run
`growCage 3` from seed cell 0 under `sC8` the cage reaches members
`[0, 1, 9]`, whose candidate collection is `[10, 2, 18, 10]`: cell 10 appears
twice, and of the four equally likely draw residues `r % 4`, two select
cell 10 while only one selects cell 2. -/
theorem C8_counterexample_duplicate_candidate :
    (¬ ∀ (g : Grid) (cells : List Nat) (n : Nat), n < 81 → (g n).cageID = -1 →
        (∃ c, c ∈ cells ∧ adjacent c n) → (collectNeighbors g cells).count n = 1) ∧
    (growCage 3 (setCage clearedGrid 0 0) [0] 0 sC8).2.1 = [0, 1, 9, 10] ∧
    collectNeighbors gC8 [0, 1, 9] = [10, 2, 18, 10] ∧
    (collectNeighbors gC8 [0, 1, 9]).count 10 = 2 ∧
    ((List.range 4).countP fun r =>
      (collectNeighbors gC8 [0, 1, 9]).getD (r % 4) 0 = 10) = 2 ∧
    ((List.range 4).countP fun r =>
      (collectNeighbors gC8 [0, 1, 9]).getD (r % 4) 0 = 2) = 1 := by
  refine ⟨fun hall => ?_, by decide, by decide, by decide, by decide, by decide⟩
  have h := hall gC8 [0, 1, 9] 10 (by omega) (by decide) ⟨1, by decide, by decide⟩
  rw [show (collectNeighbors gC8 [0, 1, 9]).count 10 = 2 from by decide] at h
  exact absurd h (by omega)

/-- C8, amended: at a growth step from member list `cells` (members in
range), the candidate collection contains exactly the in-range unassigned
cells edge-adjacent to some member, but each such cell appears once *per*
adjacent member (its multiplicity is the number of adjacent members, not 1),
and the added cell is drawn as the entry of this duplicate-bearing list at
index `r % length` — uniform over list positions, not over distinct
candidates. -/
theorem C8_amended_candidate_multiplicity (g : Grid) (cells : List Nat)
    (hb : ∀ c ∈ cells, c < 81) :
    (∀ n, n ∈ collectNeighbors g cells ↔
      (n < 81 ∧ (g n).cageID = -1 ∧ ∃ c, c ∈ cells ∧ adjacent c n)) ∧
    (∀ n, n < 81 → (g n).cageID = -1 →
      (collectNeighbors g cells).count n
        = cells.countP (fun c => decide (adjacent c n))) ∧
    (∀ fuel (cid : Int) (rng : Rng) (h : collectNeighbors g cells ≠ []),
      growCage (fuel + 1) g cells cid rng
        = growCage fuel
            (setCage g ((collectNeighbors g cells).get
              ⟨rng.next.1 % (collectNeighbors g cells).length,
                Nat.mod_lt _ (List.length_pos.mpr h)⟩) cid)
            (cells ++ [(collectNeighbors g cells).get
              ⟨rng.next.1 % (collectNeighbors g cells).length,
                Nat.mod_lt _ (List.length_pos.mpr h)⟩]) cid rng.next.2) := by
  refine ⟨?_, ?_, ?_⟩
  · intro n
    constructor
    · exact fun h => collectNeighbors_mem hb h
    · rintro ⟨hn81, hid, c, hc, hadj⟩
      exact List.mem_flatMap.mpr ⟨c, hc, (neighborBlock_mem_iff (hb c hc) hn81).mpr ⟨hid, hadj⟩⟩
  · intro n hn81 hid
    rw [collectNeighbors_count hn81 cells hb, if_pos hid]
  · intro fuel cid rng h
    have hunfold : growCage (fuel + 1) g cells cid rng
        = (if h : collectNeighbors g cells = [] then (g, cells, rng)
          else growCage fuel
            (setCage g ((collectNeighbors g cells).get
              ⟨rng.next.1 % (collectNeighbors g cells).length,
                Nat.mod_lt _ (List.length_pos.mpr h)⟩) cid)
            (cells ++ [(collectNeighbors g cells).get
              ⟨rng.next.1 % (collectNeighbors g cells).length,
                Nat.mod_lt _ (List.length_pos.mpr h)⟩]) cid rng.next.2) := rfl
    rw [hunfold, dif_neg h]

theorem C8_amended_candidate_multiplicity_witness :
    (∀ n, n ∈ collectNeighbors gC8 [0, 1, 9] ↔
      (n < 81 ∧ (gC8 n).cageID = -1 ∧ ∃ c, c ∈ [0, 1, 9] ∧ adjacent c n)) ∧
    (∀ n, n < 81 → (gC8 n).cageID = -1 →
      (collectNeighbors gC8 [0, 1, 9]).count n
        = List.countP (fun c => decide (adjacent c n)) [0, 1, 9]) ∧
    (∀ fuel (cid : Int) (rng : Rng) (h : collectNeighbors gC8 [0, 1, 9] ≠ []),
      growCage (fuel + 1) gC8 [0, 1, 9] cid rng
        = growCage fuel
            (setCage gC8 ((collectNeighbors gC8 [0, 1, 9]).get
              ⟨rng.next.1 % (collectNeighbors gC8 [0, 1, 9]).length,
                Nat.mod_lt _ (List.length_pos.mpr h)⟩) cid)
            ([0, 1, 9] ++ [(collectNeighbors gC8 [0, 1, 9]).get
              ⟨rng.next.1 % (collectNeighbors gC8 [0, 1, 9]).length,
                Nat.mod_lt _ (List.length_pos.mpr h)⟩]) cid rng.next.2) :=
  C8_amended_candidate_multiplicity gC8 [0, 1, 9] (by decide)

/-- The input-clearing loop of `StartGame` (KillerSudoku.cpp lines 67-74). -/
def clearInputs (g : Grid) : Grid := fun j =>
  if j < 81 then { g j with currentInput := 0, isError := false, isFixed := false } else g j

/-- One reveal draw of the medium-difficulty loop (KillerSudoku.cpp lines
78-82): a random index `g() % 81` gets its solution value as fixed input. -/
def revealOne (g : Grid) (r : Rng) : Grid × Rng :=
  let p := r.next
  let idx := p.1 % 81
  (setCell g idx { g idx with currentInput := (g idx).value, isFixed := true }, p.2)

def revealCells : Nat → Grid → Rng → Grid × Rng
  | 0, g, r => (g, r)
  | k + 1, g, r => revealCells k (revealOne g r).1 (revealOne g r).2

/-- Game state (KillerSudoku.h lines 42-52). `timeAccumulator` is a double
in the source; `StartGame` only ever writes 0 to it. -/
structure KillerSudokuGame where
  grid : Grid
  cages : List Cage
  selectedIndex : Int
  score : Int
  timer : Int
  timeAccumulator : Int
  isComplete : Bool
  isActive : Bool
  rng : Rng

/-- `KillerSudokuGame::StartGame` (KillerSudoku.cpp lines 26-84). The source
seeds TWO independent generators from `std::random_device`: the member `rng`
(line 35), consumed by `GenerateFullSolution` and `GenerateCages`, and a
separate local `std::mt19937 g` (line 45), consumed by the diagonal-box
prefill and by the medium-difficulty reveal loop. They are modelled by the
two independent streams `mseed` and `lseed`. -/
def StartGame (diff : SudokuDifficulty) (mseed lseed : Rng) : KillerSudokuGame :=
  let gd := fillDiagonal clearedGrid lseed
  let solved := GenerateFullSolution gd.1 mseed 0
  let caged := GenerateCages solved.2.1 diff solved.2.2
  let cleared := clearInputs caged.1
  let final := if diff = S_MEDIUM then revealCells 10 cleared gd.2 else (cleared, gd.2)
  { grid := final.1, cages := caged.2.1, selectedIndex := -1, score := 0, timer := 0,
    timeAccumulator := 0, isComplete := false, isActive := true, rng := caged.2.2 }

def rngOne : Rng := ⟨fun _ => 1, 0⟩

theorem clearInputs_value (g : Grid) : (clearInputs g 0).value = (g 0).value := by
  show (if (0 : Nat) < 81 then
    { g 0 with currentInput := 0, isError := false, isFixed := false } else g 0).value
      = (g 0).value
  rw [if_pos (by omega : (0 : Nat) < 81)]

theorem startGame_hard_cell0 (m l : Rng) :
    ((StartGame S_HARD m l).grid 0).value = (diagList 0 l).getD 0 0 := by
  have hsg : (StartGame S_HARD m l).grid
      = clearInputs (GenerateCages
          (GenerateFullSolution (fillDiagonal clearedGrid l).1 m 0).2.1 S_HARD
          (GenerateFullSolution (fillDiagonal clearedGrid l).1 m 0).2.2).1 := by
    unfold StartGame
    dsimp only
    rw [if_neg (by decide : ¬(S_HARD = S_MEDIUM))]
  rw [hsg, clearInputs_value]
  obtain ⟨n, hinv, hall, hval⟩ := generateCages_inv
    (GenerateFullSolution (fillDiagonal clearedGrid l).1 m 0).2.1 S_HARD
    (GenerateFullSolution (fillDiagonal clearedGrid l).1 m 0).2.2
  rw [hval 0]
  have hfd := fillDiagonal_box clearedGrid l (show (0 : Nat) < 81 by omega)
    (show (0 : Nat) < 3 by omega) rfl rfl
  have hbnd := diagList_getD_bounds 0 l (show (0 : Nat) < 9 by omega)
  have hnz : ((fillDiagonal clearedGrid l).1 0).value ≠ 0 := by
    rw [hfd]
    show (diagList 0 l).getD (3 * (0 / 9 - 3 * 0) + (0 % 9 - 3 * 0)) 0 ≠ 0
    have he : (3 * (0 / 9 - 3 * 0) + (0 % 9 - 3 * 0) : Nat) = 0 := by norm_num
    rw [he]
    omega
  have hB := (solve_spec 81 0 (fillDiagonal clearedGrid l).1 m).1
  have hpres : (GenerateFullSolution (fillDiagonal clearedGrid l).1 m 0).2.1 0
      = (fillDiagonal clearedGrid l).1 0 := by
    rw [show GenerateFullSolution (fillDiagonal clearedGrid l).1 m 0
        = solveFuel 81 0 (fillDiagonal clearedGrid l).1 m from rfl]
    exact hB 0 hnz
  rw [hpres, hfd]

/-- C7 is false as stated: `StartGame` draws from two independently seeded
generators — the member `rng` (used by the solver and the cage partitioner)
and a separate local `std::mt19937 g` (used by the diagonal prefill and the
medium reveals). Fixing the session-scoped member source therefore does not
reproduce the game: with the same member stream `rngZero`, local streams
`rngZero` and `rngOne` give solved grids whose cell 0 holds 1 and 2
respectively. -/
theorem C7_counterexample_two_rng_sources :
    (¬ ∀ (diff : SudokuDifficulty) (m l l' : Rng),
        (StartGame diff m l).grid = (StartGame diff m l').grid ∧
        (StartGame diff m l).cages = (StartGame diff m l').cages) ∧
    ((StartGame S_HARD rngZero rngZero).grid 0).value = 1 ∧
    ((StartGame S_HARD rngZero rngOne).grid 0).value = 2 := by
  have h1 : ((StartGame S_HARD rngZero rngZero).grid 0).value = 1 := by
    rw [startGame_hard_cell0 rngZero rngZero]
    decide
  have h2 : ((StartGame S_HARD rngZero rngOne).grid 0).value = 2 := by
    rw [startGame_hard_cell0 rngZero rngOne]
    decide
  refine ⟨fun hall => ?_, h1, h2⟩
  have h := (hall S_HARD rngZero rngZero rngOne).1
  rw [h, h2] at h1
  exact absurd h1 (by omega)

/-- C7, amended: the generation pipeline is reproducible once BOTH random
sources are fixed — the member stream feeding the solver and partitioner and
the local stream feeding the prefill and reveals. Any two starts with the
same difficulty, the same member stream, and local streams that produce the
same diagonal prefill yield identical games. -/
theorem C7_amended_reproducible_with_both_streams (diff : SudokuDifficulty)
    (m l l' : Rng) (hd : fillDiagonal clearedGrid l = fillDiagonal clearedGrid l') :
    StartGame diff m l = StartGame diff m l' := by
  unfold StartGame
  rw [hd]

theorem C7_amended_reproducible_with_both_streams_witness :
    StartGame S_MEDIUM rngOne rngZero = StartGame S_MEDIUM rngOne rngZero :=
  C7_amended_reproducible_with_both_streams S_MEDIUM rngOne rngZero rngZero rfl
